import Mathlib

/-!
# Verification of the email batch-dispatch engine

Shallow embedding of `src/lambda/src/lambda_function.py` (the event-driven
engine, class `EmailSender`) and, where the two variants diverge, of
`src/send_emails.py` (the direct-invocation engine).

Modelling conventions:
* A CSV row (Python `dict` produced by `csv.DictReader`) is an ordered
  association list from column name to string value.  `dict` assignment
  updates the value in place (keeping key order) or appends a fresh key.
* The opt-out set (a Python `set` of strings) is carried as a list; only
  membership matters for the engine's behaviour.
* The mail transport (`ses_client.send_email` / `smtplib`) is an external
  collaborator, modelled as an oracle `transport : String → Bool` giving the
  per-address outcome; the run additionally logs which addresses were
  actually handed to the transport.
* `email.utils.parseaddr` is modelled as the identity on plain addr-spec
  strings (the form CSV data takes); the structural check that follows it in
  `send_email` is embedded exactly.
* Exceptions (`ValueError` from template validation) are modelled with an
  explicit result type; the handler in `process_email_list` returns a 500
  response without saving, so the error branch carries no table and no
  transport log.
* A row access `row['email']` is modelled as lookup-with-default `""`; on a
  table whose rows lack the `email` column Python would raise (aborting the
  run with zero transitions), so every property proved below about
  transitions also holds for the real code on such tables.
-/

/-- One recipient record: ordered column/value pairs, as `csv.DictReader`
produces and `dict` mutation maintains. -/
abbrev Row := List (String × String)

/-- `row.get(k)` — first binding wins (dict keys are unique in practice). -/
def rowGet : Row → String → Option String
  | [], _ => none
  | (k, v) :: r, key => if k = key then some v else rowGet r key

/-- `row.get(k, d)`. -/
def rowGetD (r : Row) (k d : String) : String := (rowGet r k).getD d

/-- `row[k] = v` — update in place (keeping insertion order) or append. -/
def rowSet : Row → String → String → Row
  | [], k, v => [(k, v)]
  | (k', v') :: r, k, v => if k' = k then (k, v) :: r else (k', v') :: rowSet r k v

/-- `row.keys()`. -/
def rowKeys (r : Row) : List String := r.map Prod.fst

/-- The email field of a row (`row['email']`). -/
def emailOf (r : Row) : String := rowGetD r "email" ""

/-- `lambda_function.py` line 56-59: a row is unprocessed when
`not row.get('sent_status') or row['sent_status'] == ''` (only `None` and the
empty string are falsy here). -/
def isUnprocessed (r : Row) : Bool :=
  match rowGet r "sent_status" with
  | none => true
  | some s => decide (s = "")

/-- Python `str.lower()` (character-wise, as `list(map(...))` over the
string; `String.toLower` computes the same characters but through a byte
loop that a kernel evaluation cannot unfold). -/
def pyLower (s : String) : String := String.mk (s.toList.map Char.toLower)

/-- `_load_skip_list_from_s3` (lambda, line 188-199): extracts the `email`
column and lower-cases every value; `set` formation only affects membership. -/
def loadSkipListFromS3 (entries : List String) : List String :=
  entries.map pyLower

/-- `_load_skip_list` (send_emails.py, line 243-261): `set(skip_df["email"])`
— no lower-casing; `List.dedup` models the `set` constructor. -/
def loadSkipList (entries : List String) : List String :=
  entries.dedup

/-- Line 78: `row['email'].lower() in skip_emails`. -/
def skipHit (skip : List String) (r : Row) : Bool :=
  decide (pyLower (emailOf r) ∈ skip)

/-- Rows paired with their position in the table (processing order). -/
def enumRows : Nat → List Row → List (Nat × Row)
  | _, [] => []
  | i, r :: rest => (i, r) :: enumRows (i + 1) rest

/-- Line 56-59: `unprocessed_data`, keeping table order and original indices. -/
def unprocessedRows (tbl : List Row) : List (Nat × Row) :=
  (enumRows 0 tbl).filter fun p => isUnprocessed p.2

/-- Lines 74-81: the skip pass.  Walks `unprocessed_data` in order with the
running `processed_count`; marks (returns the index of) each opt-out hit
while the count is below the limit, and `break`s once the limit is reached. -/
def skipPass (skip : List String) (limit : Nat) : List (Nat × Row) → Nat → List Nat
  | [], _ => []
  | (i, r) :: rest, c =>
    if c < limit then
      if skipHit skip r then i :: skipPass skip limit rest (c + 1)
      else skipPass skip limit rest c
    else []

/-- Lines 83-88: `to_process` — the unprocessed rows whose (lowered) email is
not in the skip set, truncated to the remaining budget. -/
def toProcessRows (skip : List String) (rem : Nat) (up : List (Nat × Row)) :
    List (Nat × Row) :=
  (up.filter fun p => !skipHit skip p.2).take rem

/-- Python `str.split(sep)` for a one-character separator:
`"" ↦ [""]`, `"a@b@c" ↦ ["a","b","c"]`. -/
def pySplit (sep : Char) : List Char → List (List Char)
  | [] => [[]]
  | c :: r =>
    if c = sep then [] :: pySplit sep r
    else
      match pySplit sep r with
      | [] => [[c]]
      | h :: t => (c :: h) :: t

/-- `send_email` lines 124-128: address validity — non-empty, contains `'@'`,
and the segment after the first `'@'` (up to any second `'@'`) contains `'.'`.
`parseaddr` is modelled as the identity on the plain address strings CSV data
holds. -/
def validAddr (e : String) : Bool :=
  let l := e.toList
  !(decide (l = [])) && decide ('@' ∈ l) &&
    decide ('.' ∈ (pySplit '@' l).getD 1 [])

/-- One `send_email` call: returns (success, transport-call log entry).  An
address failing the structural check short-circuits to failure without a
transport call; otherwise the transport oracle decides, and any exception it
raises is already a `false` outcome. -/
def sendOne (transport : String → Bool) (r : Row) : Bool × Option String :=
  let e := emailOf r
  if validAddr e then (transport e, some e) else (false, none)

/-- The status value a run writes into `sent_status`. -/
inductive Mark where
  | skipped
  | sent
  | failed
deriving DecidableEq, Repr

def Mark.toStr : Mark → String
  | .skipped => "skipped"
  | .sent => "sent"
  | .failed => "failed"

/-- Lines 79-80 / 94-98: set `sent_status` then `send_date` on a row. -/
def markRow (m : Mark) (ts : String) (r : Row) : Row :=
  rowSet (rowSet r "sent_status" m.toStr) "send_date" ts

/-- Apply the run's status transitions to the table in place: the row at a
marked index is mutated, every other row is untouched, order is preserved. -/
def applyEvents (events : List (Nat × Mark)) (ts : String) (tbl : List Row) :
    List Row :=
  (enumRows 0 tbl).map fun p =>
    match events.lookup p.1 with
    | some m => markRow m ts p.2
    | none => p.2

/-- Run Outcome of a normally-completed run (lines 100-111), together with
the observable trace needed to state the claims: the persisted table, the
ordered status transitions, and the transport-call log. -/
structure RunOk where
  table : List Row
  events : List (Nat × Mark)
  transportCalls : List String
  emailsSent : Nat
  emailsSkippedReported : Int
  totalProcessedReported : Nat
deriving DecidableEq, Repr

/-- The indices the skip pass marks (lines 74-81), in table order; its
length is the final `processed_count`. -/
def skIndices (skip : List String) (limit : Nat) (tbl : List Row) : List Nat :=
  skipPass skip limit (unprocessedRows tbl) 0

/-- `to_process` (lines 83-88): the dispatch batch. -/
def dispatchBatch (skip : List String) (limit : Nat) (tbl : List Row) :
    List (Nat × Row) :=
  toProcessRows skip (limit - (skIndices skip limit tbl).length)
    (unprocessedRows tbl)

/-- The send loop's per-row outcomes, in batch order: index, success flag,
and the transport-call log entry (none when the structural address check
short-circuited). -/
def sendResults (transport : String → Bool) (skip : List String) (limit : Nat)
    (tbl : List Row) : List (Nat × (Bool × Option String)) :=
  (dispatchBatch skip limit tbl).map fun p => (p.1, sendOne transport p.2)

/-- All status transitions of the run, in the order they happen: the skip
pass first (lines 74-81), then the send loop (lines 91-98). -/
def runEvents (transport : String → Bool) (skip : List String) (limit : Nat)
    (tbl : List Row) : List (Nat × Mark) :=
  ((skIndices skip limit tbl).map fun i => (i, Mark.skipped)) ++
    (sendResults transport skip limit tbl).map fun q =>
      (q.1, if q.2.1 then Mark.sent else Mark.failed)

/-- Lines 66-111 of `process_email_list`: the two capped passes, the send
loop, the in-place mutations, and the returned counters.  The counters mirror
the source exactly: `processed_count` is incremented only in the skip pass,
and the summary reports `emails_skipped = processed_count - emails_sent` and
`total_processed = processed_count`. -/
def runCore (transport : String → Bool) (skip : List String) (limit : Nat)
    (ts : String) (tbl : List Row) : RunOk :=
  let sends := sendResults transport skip limit tbl
  let events := runEvents transport skip limit tbl
  let sent := (sends.filter fun q => q.2.1).length
  { table := applyEvents events ts tbl
    events := events
    transportCalls := sends.filterMap fun q => q.2.2
    emailsSent := sent
    emailsSkippedReported := ((skIndices skip limit tbl).length : Int) - (sent : Int)
    totalProcessedReported := (skIndices skip limit tbl).length }

/-- The reserved columns excluded from validation (line 252). -/
def systemColumns : List String := ["email", "sent_status", "send_date"]

/-- Line 253: `available_columns = set(csv_columns) - system_columns`,
for the first loaded record. -/
def availableColumns (r : Row) : List String :=
  ((rowKeys r).filter fun k => decide (k ∉ systemColumns)).dedup

/-- Line 255: `missing_columns = self.template_placeholders - available_columns`. -/
def missingPlaceholders (ph : List String) (r : Row) : List String :=
  (ph.filter fun p => decide (p ∉ availableColumns r)).dedup

/-- Result of `process_email_list`: either the 200 summary, or the 500 error
produced by the `ValueError` that `_validate_template_placeholders` raises —
carrying the sorted missing placeholder names and the sorted available column
names (lines 257-263).  On the error path the loops and `_save_csv_to_s3` are
never reached, so the error carries no table and no transport log. -/
inductive RunResult where
  | validationError (missing available : List String)
  | ok (o : RunOk)
deriving DecidableEq, Repr

/-- The table this run persisted, if it completed. -/
def RunResult.persisted : RunResult → Option (List Row)
  | .validationError _ _ => none
  | .ok o => some o.table

/-- The transport calls this run made (none on the validation-error path,
which aborts before the send loop). -/
def RunResult.calls : RunResult → List String
  | .validationError _ _ => []
  | .ok o => o.transportCalls

/-- The status transitions this run performed. -/
def RunResult.transitions : RunResult → List (Nat × Mark)
  | .validationError _ _ => []
  | .ok o => o.events

/-- `process_email_list` (lines 49-120): validation against the first loaded
record's columns — skipped entirely when the table is empty (line 62
`if email_data:`) — then the capped passes.  `placeholders` stands for
`self.template_placeholders`, the set extracted from template and subject. -/
def processEmailList (transport : String → Bool) (placeholders : List String)
    (skip : List String) (limit : Nat) (ts : String) (tbl : List Row) :
    RunResult :=
  match tbl with
  | [] => .ok (runCore transport skip limit ts [])
  | r0 :: _ =>
    let missing := missingPlaceholders placeholders r0
    if missing = [] then .ok (runCore transport skip limit ts tbl)
    else
      .validationError (List.insertionSort (· ≤ ·) missing)
        (List.insertionSort (· ≤ ·) (availableColumns r0))

/-! ## Subject extraction (Template Processor)

`_extract_subject_from_template` in the lambda (lines 220-232) runs
`re.search(r'<h1[^>]*>(.*?)</h1>', text, re.IGNORECASE)` and falls back to
the same pattern for `title`, then to a fixed default, stripping the matched
group.  The regex semantics are embedded directly: `re.search` tries each
start position left to right; at a position, the literal open prefix matches
case-insensitively, `[^>]*>` deterministically consumes up to the first `'>'`
(shorter matches cannot be followed by `'>'`), and the non-greedy group takes
the shortest newline-free stretch ending at a case-insensitive close tag.

The CLI variant (`send_emails.py` lines 281-292) uses
`re.search(r'<h1>(.*?)</h1>', text)` — case-sensitive, no attribute
tolerance, no title fallback, no strip — and `__init__` (lines 69-76) raises
when it finds nothing. -/

/-- Case-insensitive character comparison, as `re.IGNORECASE` applies it. -/
def charLowerEq (a b : Char) : Bool := a.toLower = b.toLower

/-- Match a literal token at the head of the input under the given character
comparison; returns the rest on success. -/
def matchToken (eq : Char → Char → Bool) : List Char → List Char → Option (List Char)
  | [], s => some s
  | _ :: _, [] => none
  | p :: ps, c :: cs => if eq p c then matchToken eq ps cs else none

/-- `[^>]*>`: consume everything up to and including the first `'>'`. -/
def afterOpenTag : List Char → Option (List Char)
  | [] => none
  | c :: cs => if c = '>' then some cs else afterOpenTag cs

/-- `(.*?)close`: the shortest newline-free stretch ending at `close`
(checked first at each position, as non-greedy matching does); returns the
captured group and the rest. -/
def innerUpToClose (eq : Char → Char → Bool) (close : List Char) :
    List Char → Option (List Char × List Char)
  | [] =>
    match matchToken eq close [] with
    | some rest => some ([], rest)
    | none => none
  | c :: cs =>
    match matchToken eq close (c :: cs) with
    | some rest => some ([], rest)
    | none =>
      if c = '\n' then none
      else
        match innerUpToClose eq close cs with
        | some q => some (c :: q.1, q.2)
        | none => none

/-- Attempt `<TAG[^>]*>(.*?)</TAG>` (case-insensitive) at this position. -/
def tryTagAt (tag : List Char) (s : List Char) : Option (List Char) :=
  match matchToken charLowerEq ('<' :: tag) s with
  | none => none
  | some rest =>
    match afterOpenTag rest with
    | none => none
    | some body =>
      match innerUpToClose charLowerEq ('<' :: '/' :: (tag ++ ['>'])) body with
      | some q => some q.1
      | none => none

/-- `re.search` for `<TAG[^>]*>(.*?)</TAG>` with `re.IGNORECASE`: the match at
the leftmost start position that admits one. -/
def searchTagCI (tag : List Char) : List Char → Option (List Char)
  | [] => tryTagAt tag []
  | c :: cs =>
    match tryTagAt tag (c :: cs) with
    | some inner => some inner
    | none => searchTagCI tag cs

/-- Python whitespace for `str.strip()` (the ASCII set). -/
def isPySpace (c : Char) : Bool :=
  c = ' ' || c = '\t' || c = '\n' || c = '\r' || c = '\x0b' || c = '\x0c'

/-- `str.strip()`: drop whitespace from both ends. -/
def pyStrip (l : List Char) : List Char :=
  ((l.dropWhile isPySpace).reverse.dropWhile isPySpace).reverse

/-- Lambda `_extract_subject_from_template` (lines 220-232). -/
def extractSubjectFromTemplate (t : String) : String :=
  match searchTagCI ['h', '1'] t.toList with
  | some inner => String.mk (pyStrip inner)
  | none =>
    match searchTagCI ['t', 'i', 't', 'l', 'e'] t.toList with
    | some inner => String.mk (pyStrip inner)
    | none => "Email from Rise Portraits"

/-- Modelled from the spec (4.1 `extractSubject`): first `h1` inner text,
else first `title` inner text, else the fixed default, each trimmed; written
in terms of the generic tag matcher so the source function can be compared
against it. -/
def firstTagInnerCI (tag : List Char) (t : String) : Option String :=
  (searchTagCI tag t.toList).map fun l => String.mk (pyStrip l)

/-- Modelled from the spec (4.1 `extractSubject`): the search order as the
spec states it. -/
def subjectSpec (t : String) : String :=
  ((firstTagInnerCI ['h', '1'] t).orElse fun _ =>
      firstTagInnerCI ['t', 'i', 't', 'l', 'e'] t).getD "Email from Rise Portraits"

/-- Attempt the CLI's `<h1>(.*?)</h1>` (case-sensitive, literal open tag,
no attribute tolerance) at this position. -/
def tryExactH1At (s : List Char) : Option (List Char) :=
  match matchToken (fun a b => a = b) ['<', 'h', '1', '>'] s with
  | none => none
  | some body =>
    match innerUpToClose (fun a b => a = b) ['<', '/', 'h', '1', '>'] body with
    | some q => some q.1
    | none => none

/-- `re.search(r'<h1>(.*?)</h1>', text)`: leftmost match. -/
def searchH1Exact : List Char → Option (List Char)
  | [] => tryExactH1At []
  | c :: cs =>
    match tryExactH1At (c :: cs) with
    | some inner => some inner
    | none => searchH1Exact cs

/-- CLI `_extract_subject_from_template` (send_emails.py lines 281-292):
`match.group(1) if match else None`, with no strip; `__init__` raises when it
is `None` and no explicit subject was supplied. -/
def extractSubjectCLI (t : String) : Option String :=
  (searchH1Exact t.toList).map String.mk

/-! ## Placeholder rendering (Template Processor)

`_replace_template_placeholders` (lambda lines 267-276) iterates the
placeholder set and runs `result = result.replace('{' + p + '}', str(row_data.get(p, '')))`
on the accumulating text; `send_email` (lines 130-137) applies it to subject
and body alike.  `str.replace` is embedded as the standard left-to-right
non-overlapping replacement; the fuel argument (initially the text length,
which one replacement step always decreases) keeps the recursion structural. -/

def replaceAllGo (pat repl : List Char) : Nat → List Char → List Char
  | _, [] => []
  | 0, s => s
  | fuel + 1, c :: rest =>
    if pat.isPrefixOf (c :: rest) then
      repl ++ replaceAllGo pat repl fuel (List.drop (pat.length - 1) rest)
    else c :: replaceAllGo pat repl fuel rest

/-- Python `text.replace(pat, repl)` for the non-empty patterns
`'{' + name + '}'` the source builds (the empty-pattern case is never
exercised). -/
def replaceAll (pat repl s : List Char) : List Char :=
  match pat with
  | [] => s
  | _ :: _ => replaceAllGo pat repl s.length s

/-- The literal token `'{' + name + '}'` built on line 272. -/
def patOf (name : String) : List Char := '{' :: (name.toList ++ ['}'])

/-- `_replace_template_placeholders`: one `str.replace` per placeholder, the
replacement value being `str(row_data.get(p, ''))`.  The source iterates a
Python `set`; the list order given here is one such iteration order, and the
properties proved below are order-independent under their hypotheses. -/
def renderPlaceholders (ph : List String) (row : Row) (text : List Char) :
    List Char :=
  ph.foldl (fun acc p => replaceAll (patOf p) ((rowGetD row p "").toList) acc) text

/-! ## Segmented templates

To reason about which occurrences of `{name}` a rendering replaces, a
template is presented as a list of segments: literal stretches and
placeholder tokens.  A template is well-bracketed when its literal stretches
contain no brace characters (every `{`/`}` in the text belongs to a
placeholder token). -/

inductive Seg where
  | lit : List Char → Seg
  | hole : String → Seg
deriving DecidableEq, Repr

def flattenSegs : List Seg → List Char
  | [] => []
  | Seg.lit l :: rest => l ++ flattenSegs rest
  | Seg.hole n :: rest => patOf n ++ flattenSegs rest

/-- Replace every `{p}` token segment by a literal segment holding `v`. -/
def substHole (p : String) (v : List Char) : List Seg → List Seg :=
  List.map fun s =>
    match s with
    | Seg.hole n => if n = p then Seg.lit v else Seg.hole n
    | Seg.lit l => Seg.lit l

/-- No brace characters. -/
def braceFreeB (l : List Char) : Bool :=
  decide ('{' ∉ l) && decide ('}' ∉ l)

/-- A segment of a well-bracketed template: literals and placeholder names
are brace-free. -/
def segWFB : Seg → Bool
  | Seg.lit l => braceFreeB l
  | Seg.hole n => braceFreeB n.toList

/-- Additionally, every placeholder token of the template is in the
extracted placeholder list. -/
def segGoodB (ph : List String) : Seg → Bool
  | Seg.lit l => braceFreeB l
  | Seg.hole n => braceFreeB n.toList && decide (n ∈ ph)

/-- The fully substituted template: every `{n}` token with `n` in the
placeholder list becomes the row's value for `n` (default `""`). -/
def substAllHoles (ph : List String) (row : Row) : List Seg → List Seg :=
  List.map fun s =>
    match s with
    | Seg.hole n => if n ∈ ph then Seg.lit ((rowGetD row n "").toList) else Seg.hole n
    | Seg.lit l => Seg.lit l

/-- The indices of the unprocessed rows. -/
def upIdx (tbl : List Row) : List Nat := (unprocessedRows tbl).map Prod.fst

/-- The placeholder fold of `_replace_template_placeholders`, replayed at
the segment level: each placeholder's token segments become literal segments
holding the row's value for it. -/
def substList (ph : List String) (row : Row) (segs : List Seg) : List Seg :=
  ph.foldl (fun sg q => substHole q ((rowGetD row q "").toList) sg) segs

/-! ## Row lemmas -/

theorem rowGet_set_same (r : Row) (k v : String) :
    rowGet (rowSet r k v) k = some v := by
  induction r with
  | nil => simp [rowSet, rowGet]
  | cons p rest ih =>
    by_cases h : p.1 = k
    · simp [rowSet, h, rowGet]
    · simp only [rowSet]
      rw [if_neg h]
      simpa [rowGet, h] using ih

theorem rowGet_set_ne (r : Row) (k v k' : String) (h : k' ≠ k) :
    rowGet (rowSet r k v) k' = rowGet r k' := by
  induction r with
  | nil =>
    simp only [rowSet, rowGet]
    rw [if_neg fun hh => h hh.symm]
  | cons p rest ih =>
    by_cases hp : p.1 = k
    · simp only [rowSet, if_pos hp, rowGet]
      rw [if_neg fun hh => h hh.symm, if_neg (by rw [hp]; exact fun hh => h hh.symm)]
    · simp only [rowSet, if_neg hp, rowGet]
      by_cases hq : p.1 = k'
      · rw [if_pos hq, if_pos hq]
      · rw [if_neg hq, if_neg hq]
        exact ih

theorem Mark.toStr_ne_empty (m : Mark) : m.toStr ≠ "" := by
  cases m <;> decide

theorem markRow_get_status (m : Mark) (ts : String) (r : Row) :
    rowGet (markRow m ts r) "sent_status" = some m.toStr := by
  unfold markRow
  rw [rowGet_set_ne _ _ _ _ (by decide)]
  exact rowGet_set_same _ _ _

theorem markRow_get_date (m : Mark) (ts : String) (r : Row) :
    rowGet (markRow m ts r) "send_date" = some ts := by
  unfold markRow
  exact rowGet_set_same _ _ _

theorem markRow_get_other (m : Mark) (ts : String) (r : Row) (k : String)
    (h1 : k ≠ "sent_status") (h2 : k ≠ "send_date") :
    rowGet (markRow m ts r) k = rowGet r k := by
  unfold markRow
  rw [rowGet_set_ne _ _ _ _ h2, rowGet_set_ne _ _ _ _ h1]

theorem isUnprocessed_markRow (m : Mark) (ts : String) (r : Row) :
    isUnprocessed (markRow m ts r) = false := by
  unfold isUnprocessed
  rw [markRow_get_status]
  simpa using Mark.toStr_ne_empty m

/-! ## Enumeration lemmas -/

theorem enumRows_length (n : Nat) (tbl : List Row) :
    (enumRows n tbl).length = tbl.length := by
  induction tbl generalizing n with
  | nil => rfl
  | cons r rest ih => simp [enumRows, ih]

theorem enumRows_get? (tbl : List Row) (n i : Nat) :
    (enumRows n tbl).get? i = (tbl.get? i).map fun r => (n + i, r) := by
  induction tbl generalizing n i with
  | nil => simp [enumRows]
  | cons r rest ih =>
    cases i with
    | zero => simp [enumRows]
    | succ j =>
      simp only [enumRows, List.get?_cons_succ, ih (n + 1) j]
      cases rest.get? j <;> simp [Nat.add_assoc, Nat.add_comm 1 j]

theorem mem_enumRows_zero {tbl : List Row} {i : Nat} {r : Row} :
    (i, r) ∈ enumRows 0 tbl ↔ tbl.get? i = some r := by
  constructor
  · intro h
    obtain ⟨j, hj⟩ := List.get?_of_mem h
    rw [enumRows_get?] at hj
    cases hget : tbl.get? j with
    | none => rw [hget] at hj; exact absurd hj (by simp)
    | some row =>
      rw [hget] at hj
      simp only [Option.map_some', Option.some_inj, Prod.mk.injEq, Nat.zero_add] at hj
      rw [← hj.1, hget, hj.2]
  · intro h
    have hthis := enumRows_get? tbl 0 i
    rw [h] at hthis
    simp only [Option.map_some', Nat.zero_add] at hthis
    exact List.get?_mem hthis

theorem enumRows_map_fst (n : Nat) (tbl : List Row) :
    (enumRows n tbl).map Prod.fst = List.range' n tbl.length := by
  induction tbl generalizing n with
  | nil => rfl
  | cons r rest ih => simp [enumRows, List.range'_succ, ih]

theorem enumRows_fst_nodup (tbl : List Row) :
    ((enumRows 0 tbl).map Prod.fst).Nodup := by
  rw [enumRows_map_fst]
  exact List.nodup_range' 0 tbl.length

/-- Pair lists whose first components come from an enumeration are
functional: one index, one row. -/
theorem enumRows_fst_inj {tbl : List Row} {i : Nat} {a b : Row}
    (ha : (i, a) ∈ enumRows 0 tbl) (hb : (i, b) ∈ enumRows 0 tbl) : a = b := by
  have ha' := mem_enumRows_zero.1 ha
  have hb' := mem_enumRows_zero.1 hb
  rw [ha'] at hb'
  exact Option.some_inj.1 hb'

/-! ## Selector lemmas -/

theorem mem_unprocessedRows {tbl : List Row} {i : Nat} {r : Row} :
    (i, r) ∈ unprocessedRows tbl ↔ tbl.get? i = some r ∧ isUnprocessed r := by
  unfold unprocessedRows
  rw [List.mem_filter, mem_enumRows_zero]

theorem unprocessedRows_fst_inj {tbl : List Row} {i : Nat} {a b : Row}
    (ha : (i, a) ∈ unprocessedRows tbl) (hb : (i, b) ∈ unprocessedRows tbl) :
    a = b := by
  have ha' := (mem_unprocessedRows.1 ha).1
  have hb' := (mem_unprocessedRows.1 hb).1
  rw [ha'] at hb'
  exact Option.some_inj.1 hb'

theorem unprocessedRows_sublist (tbl : List Row) :
    (unprocessedRows tbl).Sublist (enumRows 0 tbl) :=
  List.filter_sublist _

theorem unprocessedRows_fst_nodup (tbl : List Row) :
    ((unprocessedRows tbl).map Prod.fst).Nodup :=
  ((unprocessedRows_sublist tbl).map Prod.fst).nodup (enumRows_fst_nodup tbl)

theorem unprocessedRows_length_le (tbl : List Row) :
    (unprocessedRows tbl).length ≤ tbl.length := by
  have h := (unprocessedRows_sublist tbl).length_le
  rwa [enumRows_length] at h

/-- The skip pass never marks more rows than its remaining budget. -/
theorem skipPass_length_le (skip : List String) (limit : Nat) :
    ∀ (l : List (Nat × Row)) (c : Nat),
      (skipPass skip limit l c).length ≤ limit - c := by
  intro l
  induction l with
  | nil => intro c; simp [skipPass]
  | cons p rest ih =>
    intro c
    obtain ⟨i, r⟩ := p
    simp only [skipPass]
    by_cases hc : c < limit
    · rw [if_pos hc]
      by_cases hh : skipHit skip r
      · rw [if_pos hh]
        have := ih (c + 1)
        simp only [List.length_cons]
        omega
      · rw [if_neg hh]; exact ih c
    · rw [if_neg hc]; simp

/-- Every index the skip pass marks comes from the traversed list, with an
opt-out hit. -/
theorem mem_skipPass {skip : List String} {limit : Nat} :
    ∀ {l : List (Nat × Row)} {c i : Nat}, i ∈ skipPass skip limit l c →
      ∃ r, (i, r) ∈ l ∧ skipHit skip r := by
  intro l
  induction l with
  | nil => intro c i h; simp [skipPass] at h
  | cons p rest ih =>
    intro c i h
    obtain ⟨j, r⟩ := p
    simp only [skipPass] at h
    by_cases hc : c < limit
    · rw [if_pos hc] at h
      by_cases hh : skipHit skip r
      · rw [if_pos hh] at h
        rcases List.mem_cons.1 h with h1 | h1
        · exact ⟨r, by simp [h1], hh⟩
        · obtain ⟨r', hm, hhit⟩ := ih h1
          exact ⟨r', List.mem_cons_of_mem _ hm, hhit⟩
      · rw [if_neg hh] at h
        obtain ⟨r', hm, hhit⟩ := ih h
        exact ⟨r', List.mem_cons_of_mem _ hm, hhit⟩
    · rw [if_neg hc] at h
      simp at h

/-- The marked indices form a sublist of the traversed indices (hence are in
traversal order, without duplicates when the input has none). -/
theorem skipPass_sublist_fst (skip : List String) (limit : Nat) :
    ∀ (l : List (Nat × Row)) (c : Nat),
      (skipPass skip limit l c).Sublist (l.map Prod.fst) := by
  intro l
  induction l with
  | nil => intro c; simp [skipPass]
  | cons p rest ih =>
    intro c
    obtain ⟨i, r⟩ := p
    simp only [skipPass, List.map_cons]
    by_cases hc : c < limit
    · rw [if_pos hc]
      by_cases hh : skipHit skip r
      · rw [if_pos hh]
        exact List.Sublist.cons₂ _ (ih (c + 1))
      · rw [if_neg hh]
        exact List.Sublist.cons _ (ih c)
    · rw [if_neg hc]
      exact List.nil_sublist _

/-- With enough budget for the whole list, the skip pass marks every
opt-out hit it traverses. -/
theorem skipPass_complete {skip : List String} {limit : Nat} :
    ∀ {l : List (Nat × Row)} {c : Nat}, c + l.length ≤ limit →
      ∀ {i : Nat} {r : Row}, (i, r) ∈ l → skipHit skip r →
        i ∈ skipPass skip limit l c := by
  intro l
  induction l with
  | nil => intro c _ i r h; simp at h
  | cons p rest ih =>
    intro c hbudget i r hmem hhit
    obtain ⟨j, r'⟩ := p
    have hc : c < limit := by
      simp only [List.length_cons] at hbudget
      omega
    simp only [skipPass, if_pos hc]
    rcases List.mem_cons.1 hmem with h1 | h1
    · rw [Prod.mk.injEq] at h1
      obtain ⟨rfl, rfl⟩ := h1
      rw [if_pos hhit]
      exact List.mem_cons_self _ _
    · by_cases hh : skipHit skip r'
      · rw [if_pos hh]
        refine List.mem_cons_of_mem _ (ih ?_ h1 hhit)
        simp only [List.length_cons] at hbudget
        omega
      · rw [if_neg hh]
        refine ih ?_ h1 hhit
        simp only [List.length_cons] at hbudget
        omega

/-- `limit = 0` makes the skip pass mark nothing. -/
theorem skipPass_zero (skip : List String) (l : List (Nat × Row)) :
    skipPass skip 0 l 0 = [] := by
  cases l with
  | nil => rfl
  | cons p rest =>
    obtain ⟨i, r⟩ := p
    simp [skipPass]

theorem mem_toProcessRows {skip : List String} {rem : Nat}
    {up : List (Nat × Row)} {p : Nat × Row} (h : p ∈ toProcessRows skip rem up) :
    p ∈ up ∧ skipHit skip p.2 = false := by
  unfold toProcessRows at h
  have h1 := List.mem_of_mem_take h
  have h2 := List.mem_filter.1 h1
  exact ⟨h2.1, by simpa using h2.2⟩

theorem toProcessRows_length_le (skip : List String) (rem : Nat)
    (up : List (Nat × Row)) : (toProcessRows skip rem up).length ≤ rem := by
  unfold toProcessRows
  exact (List.length_take ..).trans_le (Nat.min_le_left _ _)

theorem toProcessRows_sublist (skip : List String) (rem : Nat)
    (up : List (Nat × Row)) : (toProcessRows skip rem up).Sublist up :=
  (List.take_sublist _ _).trans (List.filter_sublist _)

theorem toProcessRows_fst_nodup (skip : List String) (rem : Nat)
    (tbl : List Row) :
    ((toProcessRows skip rem (unprocessedRows tbl)).map Prod.fst).Nodup :=
  ((toProcessRows_sublist skip rem _).map Prod.fst).nodup
    (unprocessedRows_fst_nodup tbl)

/-! ## Lookup and event-application lemmas -/

theorem lookup_append (i : Nat) (l1 l2 : List (Nat × Mark)) :
    (l1 ++ l2).lookup i =
      match l1.lookup i with
      | some m => some m
      | none => l2.lookup i := by
  induction l1 with
  | nil => simp [List.lookup]
  | cons p rest ih =>
    simp only [List.cons_append, List.lookup]
    cases h : i == p.1 <;> simp [ih]

theorem lookup_eq_none_of_not_fst {i : Nat} {l : List (Nat × Mark)}
    (h : ∀ p ∈ l, p.1 ≠ i) : l.lookup i = none := by
  induction l with
  | nil => rfl
  | cons p rest ih =>
    simp only [List.lookup]
    have hp : p.1 ≠ i := h p (List.mem_cons_self _ _)
    have : (i == p.1) = false := beq_false_of_ne fun hh => hp hh.symm
    rw [this]
    exact ih fun q hq => h q (List.mem_cons_of_mem _ hq)

theorem lookup_isSome_of_mem_fst {i : Nat} {l : List (Nat × Mark)}
    (h : i ∈ l.map Prod.fst) : ∃ m, l.lookup i = some m := by
  induction l with
  | nil => simp at h
  | cons p rest ih =>
    simp only [List.map_cons, List.mem_cons] at h
    simp only [List.lookup]
    by_cases hi : i = p.1
    · rw [show (i == p.1) = true from beq_iff_eq.2 hi]
      exact ⟨p.2, rfl⟩
    · rw [show (i == p.1) = false from beq_false_of_ne hi]
      exact ih (h.resolve_left hi)

theorem lookup_map_skipped {i : Nat} {sk : List Nat} (h : i ∈ sk) :
    ((sk.map fun j => (j, Mark.skipped)).lookup i) = some Mark.skipped := by
  induction sk with
  | nil => simp at h
  | cons j rest ih =>
    simp only [List.map_cons, List.lookup]
    by_cases hi : i = j
    · rw [show (i == j) = true from beq_iff_eq.2 hi]
    · rw [show (i == j) = false from beq_false_of_ne hi]
      exact ih (List.mem_cons.1 h |>.resolve_left hi)

theorem lookup_map_skipped_none {i : Nat} {sk : List Nat} (h : i ∉ sk) :
    ((sk.map fun j => (j, Mark.skipped)).lookup i) = none :=
  lookup_eq_none_of_not_fst fun p hp => by
    obtain ⟨j, hj, rfl⟩ := List.mem_map.1 hp
    exact fun hh => h (hh ▸ hj)

/-- In a pair list built over a list with distinct indices, `lookup` returns
exactly the value built from the matching element. -/
theorem lookup_map_of_nodup {α : Type} {f : Nat × α → Mark} :
    ∀ {l : List (Nat × α)} {i : Nat} {x : α},
      (l.map Prod.fst).Nodup → (i, x) ∈ l →
      ((l.map fun p => (p.1, f p)).lookup i) = some (f (i, x)) := by
  intro l
  induction l with
  | nil => intro i x _ h; simp at h
  | cons p rest ih =>
    intro i x hnd hmem
    simp only [List.map_cons, List.nodup_cons] at hnd
    simp only [List.map_cons, List.lookup]
    rcases List.mem_cons.1 hmem with h1 | h1
    · rw [← h1]
      simp
    · have hi : i ≠ p.1 := by
        intro hh
        exact hnd.1 (hh ▸ List.mem_map_of_mem Prod.fst h1)
      rw [show (i == p.1) = false from beq_false_of_ne hi]
      exact ih hnd.2 h1

theorem applyEvents_length (ev : List (Nat × Mark)) (ts : String)
    (tbl : List Row) : (applyEvents ev ts tbl).length = tbl.length := by
  unfold applyEvents
  rw [List.length_map, enumRows_length]

theorem applyEvents_get? (ev : List (Nat × Mark)) (ts : String)
    (tbl : List Row) (i : Nat) :
    (applyEvents ev ts tbl).get? i =
      (tbl.get? i).map fun r =>
        match ev.lookup i with
        | some m => markRow m ts r
        | none => r := by
  unfold applyEvents
  rw [List.get?_map, enumRows_get?]
  cases tbl.get? i <;> simp

/-! ## Run-level structural lemmas -/

theorem runCore_table (transport : String → Bool) (skip : List String)
    (limit : Nat) (ts : String) (tbl : List Row) :
    (runCore transport skip limit ts tbl).table =
      applyEvents (runEvents transport skip limit tbl) ts tbl := rfl

theorem runCore_events (transport : String → Bool) (skip : List String)
    (limit : Nat) (ts : String) (tbl : List Row) :
    (runCore transport skip limit ts tbl).events =
      runEvents transport skip limit tbl := rfl

theorem runCore_calls (transport : String → Bool) (skip : List String)
    (limit : Nat) (ts : String) (tbl : List Row) :
    (runCore transport skip limit ts tbl).transportCalls =
      (sendResults transport skip limit tbl).filterMap fun q => q.2.2 := rfl

theorem skIndices_length_le (skip : List String) (limit : Nat)
    (tbl : List Row) : (skIndices skip limit tbl).length ≤ limit := by
  have h := skipPass_length_le skip limit (unprocessedRows tbl) 0
  simpa using h

theorem mem_skIndices {skip : List String} {limit : Nat} {tbl : List Row}
    {i : Nat} (h : i ∈ skIndices skip limit tbl) :
    ∃ r, tbl.get? i = some r ∧ isUnprocessed r ∧ skipHit skip r := by
  obtain ⟨r, hm, hhit⟩ := mem_skipPass h
  obtain ⟨hg, hu⟩ := mem_unprocessedRows.1 hm
  exact ⟨r, hg, hu, hhit⟩

theorem skIndices_nodup (skip : List String) (limit : Nat) (tbl : List Row) :
    (skIndices skip limit tbl).Nodup :=
  (skipPass_sublist_fst skip limit (unprocessedRows tbl) 0).nodup
    (unprocessedRows_fst_nodup tbl)

theorem mem_dispatchBatch {skip : List String} {limit : Nat} {tbl : List Row}
    {i : Nat} {r : Row} (h : (i, r) ∈ dispatchBatch skip limit tbl) :
    tbl.get? i = some r ∧ isUnprocessed r ∧ skipHit skip r = false := by
  obtain ⟨hup, hhit⟩ := mem_toProcessRows h
  obtain ⟨hg, hu⟩ := mem_unprocessedRows.1 hup
  exact ⟨hg, hu, hhit⟩

/-- A skip-marked index never appears in the dispatch batch: the batch keeps
only rows whose email misses the opt-out set. -/
theorem skIndices_disjoint_dispatchBatch {skip : List String} {limit : Nat}
    {tbl : List Row} {i : Nat} (hsk : i ∈ skIndices skip limit tbl)
    {r : Row} (hb : (i, r) ∈ dispatchBatch skip limit tbl) : False := by
  obtain ⟨r', hm', hhit'⟩ := mem_skipPass hsk
  obtain ⟨hup, hhit⟩ := mem_toProcessRows hb
  have : r = r' := unprocessedRows_fst_inj hup hm'
  rw [this, hhit'] at hhit
  exact Bool.noConfusion hhit

theorem runEvents_length (transport : String → Bool) (skip : List String)
    (limit : Nat) (tbl : List Row) :
    (runEvents transport skip limit tbl).length =
      (skIndices skip limit tbl).length + (dispatchBatch skip limit tbl).length := by
  unfold runEvents sendResults
  simp

/-- Cap respect at the event level. -/
theorem runEvents_length_le (transport : String → Bool) (skip : List String)
    (limit : Nat) (tbl : List Row) :
    (runEvents transport skip limit tbl).length ≤ limit := by
  rw [runEvents_length]
  have h1 := skIndices_length_le skip limit tbl
  have h2 := toProcessRows_length_le skip
    (limit - (skIndices skip limit tbl).length) (unprocessedRows tbl)
  unfold dispatchBatch
  omega

/-- The send-loop part of the event list, recast as a single map over the
dispatch batch. -/
theorem runEvents_eq_append (transport : String → Bool) (skip : List String)
    (limit : Nat) (tbl : List Row) :
    runEvents transport skip limit tbl =
      ((skIndices skip limit tbl).map fun i => (i, Mark.skipped)) ++
        (dispatchBatch skip limit tbl).map fun p =>
          (p.1, if (sendOne transport p.2).1 then Mark.sent else Mark.failed) := by
  unfold runEvents sendResults
  rw [List.map_map]
  rfl

/-- Every event points at an unprocessed row of the table. -/
theorem mem_runEvents {transport : String → Bool} {skip : List String}
    {limit : Nat} {tbl : List Row} {i : Nat} {m : Mark}
    (h : (i, m) ∈ runEvents transport skip limit tbl) :
    ∃ r, tbl.get? i = some r ∧ isUnprocessed r := by
  rw [runEvents_eq_append] at h
  rcases List.mem_append.1 h with h1 | h1
  · obtain ⟨j, hj, hje⟩ := List.mem_map.1 h1
    have : j = i := congrArg Prod.fst hje
    obtain ⟨r, hg, hu, _⟩ := mem_skIndices (this ▸ hj)
    exact ⟨r, hg, hu⟩
  · obtain ⟨⟨j, r⟩, hp, hpe⟩ := List.mem_map.1 h1
    have : j = i := congrArg Prod.fst hpe
    obtain ⟨hg, hu, _⟩ := mem_dispatchBatch hp
    exact ⟨r, this ▸ hg, hu⟩

/-- The run's event indices are distinct. -/
theorem runEvents_fst_nodup (transport : String → Bool) (skip : List String)
    (limit : Nat) (tbl : List Row) :
    ((runEvents transport skip limit tbl).map Prod.fst).Nodup := by
  rw [runEvents_eq_append, List.map_append, List.map_map, List.map_map]
  have e1 : (Prod.fst ∘ fun i : Nat => (i, Mark.skipped)) = id := rfl
  have e2 : (Prod.fst ∘ fun p : Nat × Row =>
      (p.1, if (sendOne transport p.2).1 then Mark.sent else Mark.failed)) =
      Prod.fst := rfl
  rw [e1, e2, List.map_id, List.nodup_append]
  have htp : ((dispatchBatch skip limit tbl).map Prod.fst).Nodup := by
    simpa [dispatchBatch] using toProcessRows_fst_nodup skip
      (limit - (skIndices skip limit tbl).length) tbl
  refine ⟨skIndices_nodup skip limit tbl, htp, ?_⟩
  intro i hi hj
  obtain ⟨⟨j, r⟩, hp, hpe⟩ := List.mem_map.1 hj
  have hji : j = i := hpe
  rw [← hji] at hi
  exact skIndices_disjoint_dispatchBatch hi hp

/-- Looking a skip-marked index up in the event list yields `skipped`. -/
theorem runEvents_lookup_skipped {transport : String → Bool}
    {skip : List String} {limit : Nat} {tbl : List Row} {i : Nat}
    (h : i ∈ skIndices skip limit tbl) :
    (runEvents transport skip limit tbl).lookup i = some Mark.skipped := by
  rw [runEvents_eq_append, lookup_append, lookup_map_skipped h]

/-- Looking a dispatch-batch index up in the event list yields the
send-loop outcome for that row. -/
theorem runEvents_lookup_batch {transport : String → Bool}
    {skip : List String} {limit : Nat} {tbl : List Row} {i : Nat} {r : Row}
    (h : (i, r) ∈ dispatchBatch skip limit tbl) :
    (runEvents transport skip limit tbl).lookup i =
      some (if (sendOne transport r).1 then Mark.sent else Mark.failed) := by
  rw [runEvents_eq_append, lookup_append]
  have hnone : ((skIndices skip limit tbl).map
      fun j => (j, Mark.skipped)).lookup i = none := by
    refine lookup_map_skipped_none fun hmem => ?_
    exact skIndices_disjoint_dispatchBatch hmem h
  rw [hnone]
  have hnd : ((dispatchBatch skip limit tbl).map Prod.fst).Nodup := by
    simpa [dispatchBatch] using toProcessRows_fst_nodup skip
      (limit - (skIndices skip limit tbl).length) tbl
  exact lookup_map_of_nodup hnd h

/-- An index with no event keeps its row in the final table. -/
theorem runCore_table_get_unchanged {transport : String → Bool}
    {skip : List String} {limit : Nat} {ts : String} {tbl : List Row}
    {i : Nat} {r : Row} (hg : tbl.get? i = some r)
    (h : ∀ p ∈ runEvents transport skip limit tbl, p.1 ≠ i) :
    (runCore transport skip limit ts tbl).table.get? i = some r := by
  rw [runCore_table, applyEvents_get?, hg, lookup_eq_none_of_not_fst h]
  rfl

/-- An index with an event gets exactly its marked row in the final table. -/
theorem runCore_table_get_marked {transport : String → Bool}
    {skip : List String} {limit : Nat} {ts : String} {tbl : List Row}
    {i : Nat} {r : Row} {m : Mark} (hg : tbl.get? i = some r)
    (h : (runEvents transport skip limit tbl).lookup i = some m) :
    (runCore transport skip limit ts tbl).table.get? i =
      some (markRow m ts r) := by
  rw [runCore_table, applyEvents_get?, hg, h]
  rfl

theorem skIndices_zero (skip : List String) (tbl : List Row) :
    skIndices skip 0 tbl = [] :=
  skipPass_zero skip (unprocessedRows tbl)

theorem dispatchBatch_zero (skip : List String) (tbl : List Row) :
    dispatchBatch skip 0 tbl = [] := by
  unfold dispatchBatch toProcessRows
  rw [skIndices_zero]
  simp

theorem sendResults_zero (transport : String → Bool) (skip : List String)
    (tbl : List Row) : sendResults transport skip 0 tbl = [] := by
  unfold sendResults
  rw [dispatchBatch_zero]
  rfl

theorem runEvents_zero (transport : String → Bool) (skip : List String)
    (tbl : List Row) : runEvents transport skip 0 tbl = [] := by
  rw [runEvents_eq_append, skIndices_zero, dispatchBatch_zero]
  rfl

/-- Every transport call the run logs is for an address that passed the
structural check. -/
theorem mem_transportCalls {transport : String → Bool} {skip : List String}
    {limit : Nat} {ts : String} {tbl : List Row} {e : String}
    (h : e ∈ (runCore transport skip limit ts tbl).transportCalls) :
    validAddr e = true ∧
      ∃ i r, (i, r) ∈ dispatchBatch skip limit tbl ∧ e = emailOf r := by
  rw [runCore_calls] at h
  obtain ⟨q, hq, hqe⟩ := List.mem_filterMap.1 h
  unfold sendResults at hq
  obtain ⟨⟨i, r⟩, hp, hpe⟩ := List.mem_map.1 hq
  rw [← hpe] at hqe
  simp only at hqe
  unfold sendOne at hqe
  by_cases hv : validAddr (emailOf r)
  · rw [if_pos hv] at hqe
    simp only [Option.some_inj] at hqe
    exact ⟨hqe ▸ hv, i, r, hp, hqe.symm⟩
  · rw [if_neg hv] at hqe
    exact absurd hqe (by simp)

/-! ## Replacement lemmas (for C6) -/

theorem braceFreeB_iff {l : List Char} :
    braceFreeB l = true ↔ '{' ∉ l ∧ '}' ∉ l := by
  simp [braceFreeB]

theorem replaceAllGo_fuel (pat repl : List Char) :
    ∀ (f : Nat), ∀ {g : Nat} {s : List Char}, s.length ≤ f → s.length ≤ g →
      replaceAllGo pat repl f s = replaceAllGo pat repl g s := by
  intro f
  induction f with
  | zero =>
    intro g s hf _
    have : s = [] := List.length_eq_zero.1 (Nat.le_zero.1 hf)
    subst this
    cases g <;> rfl
  | succ f ih =>
    intro g s hf hg
    cases s with
    | nil => cases g <;> rfl
    | cons c rest =>
      cases g with
      | zero => simp at hg
      | succ g' =>
        simp only [replaceAllGo]
        simp only [List.length_cons] at hf hg
        by_cases hpre : pat.isPrefixOf (c :: rest)
        · rw [if_pos hpre, if_pos hpre]
          have h1 : (List.drop (pat.length - 1) rest).length ≤ f := by
            rw [List.length_drop]
            omega
          have h2 : (List.drop (pat.length - 1) rest).length ≤ g' := by
            rw [List.length_drop]
            omega
          rw [ih h1 h2]
        · rw [if_neg hpre, if_neg hpre]
          rw [ih (show rest.length ≤ f by omega) (show rest.length ≤ g' by omega)]

theorem replaceAll_nil (pat repl : List Char) : replaceAll pat repl [] = [] := by
  cases pat <;> rfl

theorem replaceAll_head_match {pat s : List Char} (repl : List Char)
    (hne : pat ≠ []) (hpre : pat.isPrefixOf s) :
    replaceAll pat repl s = repl ++ replaceAll pat repl (s.drop pat.length) := by
  cases pat with
  | nil => exact absurd rfl hne
  | cons p ps =>
    cases s with
    | nil => exact absurd hpre (by simp [List.isPrefixOf])
    | cons c rest =>
      show replaceAllGo (p :: ps) repl (rest.length + 1) (c :: rest) = _
      simp only [replaceAllGo, if_pos hpre]
      have hd : (c :: rest).drop (p :: ps).length = rest.drop ((p :: ps).length - 1) := by
        simp [List.length_cons]
      rw [hd]
      show _ = repl ++ replaceAllGo (p :: ps) repl
        (rest.drop ((p :: ps).length - 1)).length (rest.drop ((p :: ps).length - 1))
      have hlen : (rest.drop ((p :: ps).length - 1)).length ≤ rest.length := by
        rw [List.length_drop]
        omega
      rw [replaceAllGo_fuel (p :: ps) repl rest.length hlen (Nat.le_refl _)]

theorem replaceAll_cons_no_match {pat : List Char} (repl : List Char)
    {c : Char} {rest : List Char} (hne : pat ≠ [])
    (h : ¬ pat.isPrefixOf (c :: rest)) :
    replaceAll pat repl (c :: rest) = c :: replaceAll pat repl rest := by
  cases pat with
  | nil => exact absurd rfl hne
  | cons p ps =>
    show replaceAllGo (p :: ps) repl (rest.length + 1) (c :: rest) = _
    simp only [replaceAllGo, if_neg h]
    rfl

/-- Stepping a replacement over a literal stretch that contains no `'{'`:
no occurrence of a `'{'`-headed pattern can start inside it. -/
theorem replaceAll_lit_append {pt : List Char} (repl : List Char) :
    ∀ {l : List Char}, '{' ∉ l → ∀ (t : List Char),
      replaceAll ('{' :: pt) repl (l ++ t) =
        l ++ replaceAll ('{' :: pt) repl t := by
  intro l
  induction l with
  | nil => intro _ t; rfl
  | cons c l' ih =>
    intro hmem t
    have hc : c ≠ '{' := fun hh => hmem (hh ▸ List.mem_cons_self _ _)
    have hnp : ¬ ('{' :: pt).isPrefixOf (c :: (l' ++ t)) := by
      simp only [List.isPrefixOf, Bool.and_eq_true, beq_iff_eq]
      intro hh
      exact hc hh.1.symm
    rw [List.cons_append, replaceAll_cons_no_match repl (by simp) hnp,
      ih (fun hh => hmem (List.mem_cons_of_mem _ hh)) t, List.cons_append]

/-- Two distinct brace-free names give non-overlapping placeholder tokens:
`P}` is never a prefix of `N}…`. -/
theorem patOf_tail_no_match :
    ∀ {P N : List Char}, '}' ∉ P → '}' ∉ N → P ≠ N → ∀ (w : List Char),
      ¬ (P ++ ['}']).isPrefixOf (N ++ '}' :: w) := by
  intro P
  induction P with
  | nil =>
    intro N hP hN hne w h
    cases N with
    | nil => exact hne rfl
    | cons d N' =>
      simp only [List.nil_append, List.cons_append, List.isPrefixOf,
        Bool.and_eq_true, beq_iff_eq] at h
      exact hN (h.1 ▸ List.mem_cons_self _ _)
  | cons a P' ih =>
    intro N hP hN hne w h
    cases N with
    | nil =>
      simp only [List.cons_append, List.nil_append, List.isPrefixOf,
        Bool.and_eq_true, beq_iff_eq] at h
      exact hP (h.1 ▸ List.mem_cons_self _ _)
    | cons d N' =>
      simp only [List.cons_append, List.isPrefixOf, Bool.and_eq_true,
        beq_iff_eq] at h
      obtain ⟨had, hrest⟩ := h
      have hne' : P' ≠ N' := by
        intro hh
        exact hne (by rw [had, hh])
      exact ih (fun hh => hP (List.mem_cons_of_mem _ hh))
        (fun hh => hN (List.mem_cons_of_mem _ hh)) hne' w hrest

/-- Replacing a placeholder at its own token. -/
theorem replaceAll_patOf_self (p : String) (v t : List Char) :
    replaceAll (patOf p) v (patOf p ++ t) = v ++ replaceAll (patOf p) v t := by
  have hne : patOf p ≠ [] := by simp [patOf]
  have hpre : (patOf p).isPrefixOf (patOf p ++ t) :=
    List.isPrefixOf_iff_prefix.2 (List.prefix_append _ _)
  rw [replaceAll_head_match v hne hpre, List.drop_left]

/-- Stepping a replacement over a different placeholder's token. -/
theorem replaceAll_patOf_other {p n : String}
    (hp : braceFreeB p.toList = true) (hn : braceFreeB n.toList = true)
    (hne : n ≠ p) (v t : List Char) :
    replaceAll (patOf p) v (patOf n ++ t) =
      patOf n ++ replaceAll (patOf p) v t := by
  obtain ⟨hpl, hpr⟩ := braceFreeB_iff.1 hp
  obtain ⟨hnl, hnr⟩ := braceFreeB_iff.1 hn
  have hshape : patOf n ++ t = '{' :: ((n.toList ++ ['}']) ++ t) := by
    simp [patOf]
  have hnp : ¬ (patOf p).isPrefixOf ('{' :: ((n.toList ++ ['}']) ++ t)) := by
    unfold patOf
    simp only [List.isPrefixOf, Bool.and_eq_true, beq_iff_eq]
    intro hh
    have hw : (n.toList ++ ['}']) ++ t = n.toList ++ '}' :: t := by simp
    rw [hw] at hh
    refine patOf_tail_no_match hpr hnr ?_ t hh.2
    intro hpn
    exact hne (String.ext hpn.symm)
  rw [hshape, replaceAll_cons_no_match v (by simp [patOf]) hnp]
  have hlit : '{' ∉ n.toList ++ ['}'] := by
    simp only [List.mem_append, List.mem_singleton]
    rintro (hh | hh)
    · exact hnl hh
    · exact absurd hh.symm (by decide)
  have hstep := @replaceAll_lit_append (p.toList ++ ['}']) v
    (n.toList ++ ['}']) hlit t
  rw [show ('{' :: (p.toList ++ ['}'])) = patOf p from rfl] at hstep
  rw [hstep]
  simp [patOf]

/-- One placeholder replacement over a whole well-bracketed template:
exactly the `{p}` token segments are replaced by the value. -/
theorem replaceAll_flattenSegs {p : String} {v : List Char}
    (hp : braceFreeB p.toList = true) :
    ∀ {segs : List Seg}, (∀ s ∈ segs, segWFB s = true) →
      replaceAll (patOf p) v (flattenSegs segs) =
        flattenSegs (substHole p v segs) := by
  intro segs
  induction segs with
  | nil => intro _; exact replaceAll_nil _ _
  | cons s0 rest ih =>
    intro hwf
    have hwf0 := hwf s0 (List.mem_cons_self _ _)
    have hwfr := fun s hs => hwf s (List.mem_cons_of_mem _ hs)
    cases s0 with
    | lit l =>
      have hl : '{' ∉ l := (braceFreeB_iff.1 hwf0).1
      show replaceAll (patOf p) v (l ++ flattenSegs rest) =
        flattenSegs (Seg.lit l :: substHole p v rest)
      have hstep := @replaceAll_lit_append (p.toList ++ ['}']) v l hl
        (flattenSegs rest)
      rw [show ('{' :: (p.toList ++ ['}'])) = patOf p from rfl] at hstep
      rw [hstep, ih hwfr]
      rfl
    | hole n =>
      by_cases hnp : n = p
      · subst hnp
        show replaceAll (patOf n) v (patOf n ++ flattenSegs rest) =
          flattenSegs (substHole n v (Seg.hole n :: rest))
        rw [replaceAll_patOf_self, ih hwfr]
        simp [substHole, flattenSegs]
      · show replaceAll (patOf p) v (patOf n ++ flattenSegs rest) =
          flattenSegs (substHole p v (Seg.hole n :: rest))
        rw [replaceAll_patOf_other hp hwf0 hnp, ih hwfr]
        simp [substHole, flattenSegs, hnp]

theorem substHole_segWF {p : String} {v : List Char}
    (hv : braceFreeB v = true) {segs : List Seg}
    (hwf : ∀ s ∈ segs, segWFB s = true) :
    ∀ s ∈ substHole p v segs, segWFB s = true := by
  intro s hs
  obtain ⟨s0, hs0, rfl⟩ := List.mem_map.1 hs
  have := hwf s0 hs0
  cases s0 with
  | lit l => exact this
  | hole n =>
    by_cases hnp : n = p
    · simp only [hnp, if_pos rfl]
      exact hv
    · simp only [if_neg hnp]
      exact this

/-- The full rendering fold over a well-bracketed template equals the
segment-level substitution of every listed placeholder. -/
theorem renderPlaceholders_flattenSegs (row : Row) :
    ∀ (ph : List String) (segs : List Seg),
      (∀ s ∈ segs, segWFB s = true) →
      (∀ q ∈ ph, braceFreeB q.toList = true ∧
        braceFreeB ((rowGetD row q "").toList) = true) →
      renderPlaceholders ph row (flattenSegs segs) =
        flattenSegs (substList ph row segs) := by
  intro ph
  induction ph with
  | nil => intro segs _ _; rfl
  | cons q qs ih =>
    intro segs hwf hph
    have hq := hph q (List.mem_cons_self _ _)
    have hqs := fun x hx => hph x (List.mem_cons_of_mem _ hx)
    show renderPlaceholders qs row
        (replaceAll (patOf q) ((rowGetD row q "").toList) (flattenSegs segs)) =
      flattenSegs (substList qs row (substHole q ((rowGetD row q "").toList) segs))
    rw [replaceAll_flattenSegs hq.1 hwf]
    exact ih _ (substHole_segWF hq.2 hwf) hqs

theorem substHole_segGood {q : String} {qs : List String} {v : List Char}
    (hv : braceFreeB v = true) {segs : List Seg}
    (hg : ∀ s ∈ segs, segGoodB (q :: qs) s = true) :
    ∀ s ∈ substHole q v segs, segGoodB qs s = true := by
  intro s hs
  obtain ⟨s0, hs0, rfl⟩ := List.mem_map.1 hs
  have h0 := hg s0 hs0
  cases s0 with
  | lit l => exact h0
  | hole n =>
    simp only [segGoodB, Bool.and_eq_true, decide_eq_true_iff] at h0
    by_cases hnq : n = q
    · simp only [hnq, if_pos rfl]
      exact hv
    · simp only [if_neg hnq, segGoodB, Bool.and_eq_true, decide_eq_true_iff]
      exact ⟨h0.1, (List.mem_cons.1 h0.2).resolve_left hnq⟩

theorem braceFreeB_append {a b : List Char} :
    braceFreeB (a ++ b) = (braceFreeB a && braceFreeB b) := by
  simp only [braceFreeB, List.mem_append]
  by_cases h1 : '{' ∈ a <;> by_cases h2 : '}' ∈ a <;>
    by_cases h3 : '{' ∈ b <;> by_cases h4 : '}' ∈ b <;>
    simp [h1, h2, h3, h4]

/-- After substituting every placeholder a well-covered template mentions,
the result is brace-free. -/
theorem substList_braceFree (row : Row) :
    ∀ (ph : List String) (segs : List Seg),
      (∀ s ∈ segs, segGoodB ph s = true) →
      (∀ q ∈ ph, braceFreeB ((rowGetD row q "").toList) = true) →
      braceFreeB (flattenSegs (substList ph row segs)) = true := by
  intro ph
  induction ph with
  | nil =>
    intro segs hg _
    show braceFreeB (flattenSegs segs) = true
    induction segs with
    | nil => decide
    | cons s0 rest ihs =>
      have h0 := hg s0 (List.mem_cons_self _ _)
      cases s0 with
      | lit l =>
        show braceFreeB (l ++ flattenSegs rest) = true
        have hbl : braceFreeB l = true := h0
        rw [braceFreeB_append, hbl, Bool.true_and]
        exact ihs fun s hs => hg s (List.mem_cons_of_mem _ hs)
      | hole n =>
        exact absurd h0 (by simp [segGoodB])
  | cons q qs ih =>
    intro segs hg hv
    have hvq := hv q (List.mem_cons_self _ _)
    show braceFreeB (flattenSegs (substList qs row
      (substHole q ((rowGetD row q "").toList) segs))) = true
    exact ih _ (substHole_segGood hvq hg)
      fun x hx => hv x (List.mem_cons_of_mem _ hx)

/-- A brace-free text contains no placeholder token at all. -/
theorem braceFree_no_pattern {l : List Char} (h : braceFreeB l = true)
    (xs : List Char) : ¬ (('{' :: xs) <:+: l) := by
  intro ⟨s, t, hst⟩
  have : '{' ∈ l := by
    rw [← hst]
    simp
  exact (braceFreeB_iff.1 h).1 this

/-- The flattening of a list contains each member segment's text. -/
theorem flattenSegs_contains {segs : List Seg} {s : Seg} (h : s ∈ segs) :
    ∀ l, (s = Seg.lit l → l <:+: flattenSegs segs) ∧
      (∀ n, s = Seg.hole n → patOf n <:+: flattenSegs segs) := by
  induction segs with
  | nil => simp at h
  | cons s0 rest ih =>
    intro l
    rcases List.mem_cons.1 h with h1 | h1
    · constructor
      · intro hl
        rw [← h1, hl]
        show l <:+: flattenSegs (Seg.lit l :: rest)
        exact ⟨[], flattenSegs rest, rfl⟩
      · intro n hn
        rw [← h1, hn]
        show patOf n <:+: flattenSegs (Seg.hole n :: rest)
        exact ⟨[], flattenSegs rest, rfl⟩
    · have hr := ih h1 l
      constructor
      · intro hl
        refine (hr.1 hl).trans ?_
        cases s0 with
        | lit l0 => exact ⟨l0, [], by simp [flattenSegs]⟩
        | hole n0 => exact ⟨patOf n0, [], by simp [flattenSegs]⟩
      · intro n hn
        refine (hr.2 n hn).trans ?_
        cases s0 with
        | lit l0 => exact ⟨l0, [], by simp [flattenSegs]⟩
        | hole n0 => exact ⟨patOf n0, [], by simp [flattenSegs]⟩

theorem substList_lit_mem (row : Row) {l : List Char} :
    ∀ (ph : List String) {segs : List Seg}, Seg.lit l ∈ segs →
      Seg.lit l ∈ substList ph row segs := by
  intro ph
  induction ph with
  | nil => intro segs h; exact h
  | cons q qs ih =>
    intro segs h
    refine ih ?_
    exact List.mem_map.2 ⟨Seg.lit l, h, rfl⟩

/-- A placeholder token of the template ends up as its value in the
substituted template. -/
theorem substList_hole_mem (row : Row) {x : String} :
    ∀ (ph : List String) {segs : List Seg}, x ∈ ph → Seg.hole x ∈ segs →
      Seg.lit ((rowGetD row x "").toList) ∈ substList ph row segs := by
  intro ph
  induction ph with
  | nil => intro segs h; simp at h
  | cons q qs ih =>
    intro segs hx hs
    by_cases hxq : x = q
    · subst hxq
      refine substList_lit_mem row qs ?_
      refine List.mem_map.2 ⟨Seg.hole x, hs, ?_⟩
      simp
    · refine ih (List.mem_cons.1 hx |>.resolve_left hxq) ?_
      refine List.mem_map.2 ⟨Seg.hole x, hs, ?_⟩
      simp [hxq]

/-! ## Strip and tag-search lemmas (for C5) -/

theorem dropWhile_head_false (p : Char → Bool) :
    ∀ l : List Char, l.dropWhile p = [] ∨
      ∃ c cs, l.dropWhile p = c :: cs ∧ p c = false := by
  intro l
  induction l with
  | nil => exact Or.inl rfl
  | cons c cs ih =>
    by_cases hc : p c
    · rw [List.dropWhile_cons, if_pos hc]
      exact ih
    · refine Or.inr ⟨c, cs, ?_, by simpa using hc⟩
      rw [List.dropWhile_cons, if_neg hc]

theorem dropWhile_idem (p : Char → Bool) (l : List Char) :
    (l.dropWhile p).dropWhile p = l.dropWhile p := by
  rcases dropWhile_head_false p l with h | ⟨c, cs, h, hc⟩
  · rw [h]; rfl
  · rw [h, List.dropWhile_cons, if_neg (by simp [hc])]

/-- Right-stripping a left-stripped list leaves nothing strippable on the
left: the result still starts with a non-space character (or is empty). -/
theorem dropWhile_reverse_dropWhile (p : Char → Bool) (l : List Char) :
    ((l.dropWhile p).reverse.dropWhile p).reverse.dropWhile p =
      ((l.dropWhile p).reverse.dropWhile p).reverse := by
  rcases hbr : ((l.dropWhile p).reverse.dropWhile p).reverse with _ | ⟨c, cs⟩
  · rfl
  · -- the reverse of the right-stripped list is a prefix of the
    -- left-stripped list, so its head carries over
    have hsplit : List.takeWhile p (l.dropWhile p).reverse ++
        List.dropWhile p (l.dropWhile p).reverse = (l.dropWhile p).reverse :=
      List.takeWhile_append_dropWhile p (l.dropWhile p).reverse
    have hpref : l.dropWhile p =
        ((l.dropWhile p).reverse.dropWhile p).reverse ++
          ((l.dropWhile p).reverse.takeWhile p).reverse := by
      have h2 := congrArg List.reverse hsplit
      rw [List.reverse_append, List.reverse_reverse] at h2
      exact h2.symm
    rw [hbr] at hpref
    rcases dropWhile_head_false p l with h | ⟨c', cs', h, hc'⟩
    · rw [h] at hpref
      exact absurd hpref.symm (by simp)
    · rw [h] at hpref
      have hcc : c' = c := (List.cons.injEq .. ▸ hpref).1
      rw [List.dropWhile_cons, if_neg (by rw [← hcc]; simp [hc'])]

/-- `str.strip()` is idempotent. -/
theorem pyStrip_idem (l : List Char) : pyStrip (pyStrip l) = pyStrip l := by
  unfold pyStrip
  rw [dropWhile_reverse_dropWhile, List.reverse_reverse]
  exact dropWhile_reverse_dropWhile isPySpace l

theorem matchToken_eq_append {pat s r : List Char}
    (h : matchToken (fun a b => a = b) pat s = some r) : s = pat ++ r := by
  induction pat generalizing s with
  | nil =>
    simp only [matchToken, Option.some_inj] at h
    rw [h, List.nil_append]
  | cons p ps ih =>
    cases s with
    | nil => exact absurd h (by simp [matchToken])
    | cons c cs =>
      simp only [matchToken] at h
      by_cases hpc : p = c
      · rw [if_pos (by simp [hpc])] at h
        rw [hpc, List.cons_append]
        exact congrArg (c :: ·) (ih h)
      · rw [if_neg (by simp [hpc])] at h
        exact Option.noConfusion h

theorem charLowerEq_refl (c : Char) : charLowerEq c c = true := by
  simp [charLowerEq]

theorem matchToken_ci_refl (pat : List Char) :
    ∀ r, matchToken charLowerEq pat (pat ++ r) = some r := by
  induction pat with
  | nil => intro r; rfl
  | cons p ps ih =>
    intro r
    simp only [List.cons_append, matchToken, charLowerEq_refl, if_pos]
    exact ih r

theorem matchToken_cs_ci {pat s r : List Char}
    (h : matchToken (fun a b => a = b) pat s = some r) :
    matchToken charLowerEq pat s = some r := by
  rw [matchToken_eq_append h]
  exact matchToken_ci_refl pat r

theorem innerUpToClose_cs_ci {close : List Char} :
    ∀ {s : List Char},
      (innerUpToClose (fun a b => a = b) close s).isSome →
        (innerUpToClose charLowerEq close s).isSome := by
  intro s
  induction s with
  | nil =>
    intro h
    simp only [innerUpToClose] at h ⊢
    cases hm : matchToken (fun a b => a = b) close [] with
    | none => rw [hm] at h; exact absurd h (by simp)
    | some rest => rw [matchToken_cs_ci hm]; rfl
  | cons c cs ih =>
    intro h
    simp only [innerUpToClose] at h ⊢
    cases hm : matchToken (fun a b => a = b) close (c :: cs) with
    | some rest => rw [matchToken_cs_ci hm]; rfl
    | none =>
      rw [hm] at h
      by_cases hn : c = '\n'
      · rw [if_pos hn] at h
        exact absurd h (by simp)
      · rw [if_neg hn] at h
        cases hrec : innerUpToClose (fun a b => a = b) close cs with
        | none =>
          rw [hrec] at h
          exact absurd h (by simp)
        | some q0 =>
          have hci : (innerUpToClose charLowerEq close cs).isSome :=
            ih (by rw [hrec]; rfl)
          cases hmci : matchToken charLowerEq close (c :: cs) with
          | some rest => rfl
          | none =>
            show ((if c = '\n' then none
              else
                match innerUpToClose charLowerEq close cs with
                | some q => some (c :: q.1, q.2)
                | none => none :
              Option (List Char × List Char))).isSome = true
            rw [if_neg hn]
            cases hq2 : innerUpToClose charLowerEq close cs with
            | none => rw [hq2] at hci; exact absurd hci (by simp)
            | some q2 => rfl

/-- If the CLI's exact `<h1>…</h1>` pattern matches at a position, the
lambda's tolerant pattern matches there too. -/
theorem tryExactH1At_tryTagAt {s : List Char}
    (h : (tryExactH1At s).isSome) : (tryTagAt ['h', '1'] s).isSome := by
  unfold tryExactH1At at h
  cases hm : matchToken (fun a b => a = b) ['<', 'h', '1', '>'] s with
  | none => rw [hm] at h; exact absurd h (by simp)
  | some body =>
    rw [hm] at h
    have h2 : (match innerUpToClose (fun a b => a = b) ['<', '/', 'h', '1', '>'] body with
        | some q => some q.1
        | none => none).isSome = true := h
    have hin : (innerUpToClose (fun a b => a = b)
        ['<', '/', 'h', '1', '>'] body).isSome := by
      cases hi : innerUpToClose (fun a b => a = b) ['<', '/', 'h', '1', '>'] body with
      | none => rw [hi] at h2; exact h2
      | some q => rfl
    have hci := innerUpToClose_cs_ci hin
    have hs : s = '<' :: 'h' :: '1' :: '>' :: body := matchToken_eq_append hm
    unfold tryTagAt
    have hopen : matchToken charLowerEq ('<' :: ['h', '1']) s =
        some ('>' :: body) := by
      rw [hs]
      exact matchToken_ci_refl ('<' :: ['h', '1']) ('>' :: body)
    rw [hopen]
    show (match afterOpenTag ('>' :: body) with
      | none => none
      | some b2 =>
        match innerUpToClose charLowerEq ('<' :: '/' :: (['h', '1'] ++ ['>'])) b2 with
        | some q => some q.1
        | none => none).isSome = true
    have hafter : afterOpenTag ('>' :: body) = some body := by
      simp [afterOpenTag]
    rw [hafter]
    show (match innerUpToClose charLowerEq ('<' :: '/' :: (['h', '1'] ++ ['>'])) body with
      | some q => some q.1
      | none => none).isSome = true
    cases hq : innerUpToClose charLowerEq ('<' :: '/' :: (['h', '1'] ++ ['>'])) body with
    | none =>
      have he : ('<' :: '/' :: (['h', '1'] ++ ['>'])) = ['<', '/', 'h', '1', '>'] := rfl
      rw [he] at hq
      rw [hq] at hci
      exact absurd hci (by simp)
    | some q => rfl

/-- If the CLI's search finds an exact match anywhere, the lambda's
case/attribute-tolerant search also succeeds. -/
theorem searchH1Exact_searchTagCI :
    ∀ {s : List Char}, (searchH1Exact s).isSome →
      (searchTagCI ['h', '1'] s).isSome := by
  intro s
  induction s with
  | nil =>
    intro h
    simp only [searchH1Exact] at h
    simp only [searchTagCI]
    exact tryExactH1At_tryTagAt h
  | cons c cs ih =>
    intro h
    simp only [searchH1Exact] at h
    simp only [searchTagCI]
    cases hm : tryExactH1At (c :: cs) with
    | some y =>
      have hsome : (tryExactH1At (c :: cs)).isSome = true := by rw [hm]; rfl
      have hcia := tryExactH1At_tryTagAt hsome
      cases ht : tryTagAt ['h', '1'] (c :: cs) with
      | none => rw [ht] at hcia; exact absurd hcia (by simp)
      | some inner => rfl
    | none =>
      rw [hm] at h
      have hih := ih h
      cases ht : tryTagAt ['h', '1'] (c :: cs) with
      | none => exact hih
      | some inner => rfl

/-! ## Claim theorems -/

/-- C6, counterexample.  The claim says the rendered output contains no
literal `{x}`; when the record's value for `x` is itself `"{x}"`,
`str.replace` substitutes it verbatim (it does not rescan), so the rendered
output still contains the literal token. -/
theorem c6_counterexample :
    renderPlaceholders ["x"] [("x", "{x}")] (String.toList "{x}") =
      String.toList "{x}" ∧
    (patOf "x") <:+: renderPlaceholders ["x"] [("x", "{x}")] (String.toList "{x}") := by
  refine ⟨by decide, ?_⟩
  refine ⟨[], [], ?_⟩
  decide

/-- C6, amended.  Rendering replaces every literal `{name}` token with the
record's string value for `name` — the empty string when the field is absent
— in the precise sense that rendering a well-bracketed template (braces
occur only in placeholder tokens, all of them among the extracted
placeholders, and substituted values are brace-free) equals substituting
every token segment by its value; in that case the output contains each
substituted value where its token stood and no literal `{n}` token at all
for any name. -/
theorem c6_amended_render (ph : List String) (row : Row) (segs : List Seg)
    (hseg : ∀ s ∈ segs, segGoodB ph s = true)
    (hval : ∀ q ∈ ph, braceFreeB q.toList = true ∧
      braceFreeB ((rowGetD row q "").toList) = true) :
    renderPlaceholders ph row (flattenSegs segs) =
      flattenSegs (substList ph row segs) ∧
    (∀ x, x ∈ ph → Seg.hole x ∈ segs →
      ((rowGetD row x "").toList) <:+:
        renderPlaceholders ph row (flattenSegs segs)) ∧
    (∀ n : String, ¬ (patOf n <:+:
      renderPlaceholders ph row (flattenSegs segs))) := by
  have hwf : ∀ s ∈ segs, segWFB s = true := by
    intro s hs
    have := hseg s hs
    cases s with
    | lit l => exact this
    | hole n =>
      simp only [segGoodB, Bool.and_eq_true] at this
      exact this.1
  have heq := renderPlaceholders_flattenSegs row ph segs hwf hval
  have hbf : braceFreeB (renderPlaceholders ph row (flattenSegs segs)) = true := by
    rw [heq]
    exact substList_braceFree row ph segs hseg fun q hq => (hval q hq).2
  refine ⟨heq, ?_, ?_⟩
  · intro x hx hhole
    rw [heq]
    have hmem := substList_hole_mem row ph hx hhole
    exact (flattenSegs_contains hmem ((rowGetD row x "").toList)).1 rfl
  · intro n
    have : patOf n = '{' :: (n.toList ++ ['}']) := rfl
    rw [this]
    exact braceFree_no_pattern hbf _

/-- Witness for C6's amended statement: template `Hello {x}!` with
`x = "V"` renders to `Hello V!`, contains `V`, and contains no token. -/
theorem c6_amended_render_witness :
    renderPlaceholders ["x"] [("x", "V")]
        (flattenSegs [Seg.lit (String.toList "Hello "), Seg.hole "x",
          Seg.lit (String.toList "!")]) =
      flattenSegs (substList ["x"] [("x", "V")]
        [Seg.lit (String.toList "Hello "), Seg.hole "x",
          Seg.lit (String.toList "!")]) ∧
    (String.toList "V") <:+:
      renderPlaceholders ["x"] [("x", "V")]
        (flattenSegs [Seg.lit (String.toList "Hello "), Seg.hole "x",
          Seg.lit (String.toList "!")]) ∧
    ¬ (patOf "x" <:+:
      renderPlaceholders ["x"] [("x", "V")]
        (flattenSegs [Seg.lit (String.toList "Hello "), Seg.hole "x",
          Seg.lit (String.toList "!")])) := by
  have h := c6_amended_render ["x"] [("x", "V")]
    [Seg.lit (String.toList "Hello "), Seg.hole "x", Seg.lit (String.toList "!")]
    (by decide) (by decide)
  exact ⟨h.1, h.2.1 "x" (by decide) (by decide), h.2.2 "x"⟩

/-- C5, counterexample.  The claim says subject extraction is tolerant of
letter case and never fails; the direct-invocation extractor
(`send_emails.py` lines 281-292, pattern `<h1>(.*?)</h1>` without
`re.IGNORECASE`) finds nothing in `"<H1>Hi</H1>"` — and `__init__`
(lines 69-76) then raises — while the lambda extractor returns `"Hi"`. -/
theorem c5_counterexample :
    extractSubjectCLI "<H1>Hi</H1>" = none ∧
    extractSubjectFromTemplate "<H1>Hi</H1>" = "Hi" := by
  decide

/-- C5, amended.  The lambda extractor follows the claimed order — first
`h1` (tolerant of attributes and case), else first `title` (same tolerance),
else the fixed default — returning the matched inner text trimmed (the
result is a fixed point of trimming) and never failing; the
direct-invocation extractor matches only the literal lowercase `<h1>`
pattern (whenever it succeeds, the tolerant search does too, but not
conversely) and yields no subject exactly when that pattern is absent. -/
theorem c5_amended_subject_extraction (t : String) :
    extractSubjectFromTemplate t = subjectSpec t ∧
    pyStrip (extractSubjectFromTemplate t).toList =
      (extractSubjectFromTemplate t).toList ∧
    ((extractSubjectCLI t).isSome → (searchTagCI ['h', '1'] t.toList).isSome) ∧
    (extractSubjectCLI t = none ↔ searchH1Exact t.toList = none) := by
  refine ⟨?_, ?_, ?_, ?_⟩
  · unfold extractSubjectFromTemplate subjectSpec firstTagInnerCI
    cases h1 : searchTagCI ['h', '1'] t.toList with
    | some inner => rfl
    | none =>
      cases h2 : searchTagCI ['t', 'i', 't', 'l', 'e'] t.toList with
      | some inner => rfl
      | none => rfl
  · unfold extractSubjectFromTemplate
    cases h1 : searchTagCI ['h', '1'] t.toList with
    | some inner => exact pyStrip_idem inner
    | none =>
      cases h2 : searchTagCI ['t', 'i', 't', 'l', 'e'] t.toList with
      | some inner => exact pyStrip_idem inner
      | none => decide
  · intro h
    unfold extractSubjectCLI at h
    refine searchH1Exact_searchTagCI ?_
    cases hs : searchH1Exact t.toList with
    | none => rw [hs] at h; exact absurd h (by simp)
    | some x => rfl
  · unfold extractSubjectCLI
    exact Option.map_eq_none'

/-- Witness for C5's amended statement: `"<h1>Hi</h1>"` is found by the CLI
extractor, hence also by the tolerant search. -/
theorem c5_amended_subject_extraction_witness :
    (searchTagCI ['h', '1'] (String.toList "<h1>Hi</h1>")).isSome :=
  (c5_amended_subject_extraction "<h1>Hi</h1>").2.2.1 (by decide)

/-- C1.  The Run Outcome summary misreports its counts: `processed_count` is
incremented only in the skip pass (lines 74-81), never in the send loop
(lines 91-98), yet the summary reports `emails_skipped = processed_count -
emails_sent` and `total_processed = processed_count` (lines 103-111).  On a
fresh one-recipient table with an empty opt-out set and limit 1, the run
sends one email (one transition), but the summary reports
`emails_skipped = -1` and `total_processed = 0`, where the claim requires
`0` skipped and `1` total processed. -/
theorem c1_run_outcome_miscount :
    processEmailList (fun _ => true) [] [] 1 "01/01/2025 00:00:00"
      [[("email", "a@b.c"), ("sent_status", ""), ("send_date", "")]] =
    RunResult.ok
      { table := [[("email", "a@b.c"), ("sent_status", "sent"),
                   ("send_date", "01/01/2025 00:00:00")]]
        events := [(0, Mark.sent)]
        transportCalls := ["a@b.c"]
        emailsSent := 1
        emailsSkippedReported := -1
        totalProcessedReported := 0 } := by decide

/-- C2.  Cap respect: a run performs at most `limit` status transitions; the
event list splits into a prefix of skip-transitions followed by
send/fail-transitions (the skip pass runs before the send loop); and
`limit = 0` performs no transitions and makes no transport calls. -/
theorem c2_cap_respect (transport : String → Bool) (skip : List String)
    (limit : Nat) (ts : String) (tbl : List Row) :
    (runCore transport skip limit ts tbl).events.length ≤ limit ∧
    (∃ a b, (runCore transport skip limit ts tbl).events = a ++ b ∧
      (∀ p ∈ a, p.2 = Mark.skipped) ∧
      (∀ p ∈ b, p.2 = Mark.sent ∨ p.2 = Mark.failed)) ∧
    (limit = 0 → (runCore transport skip limit ts tbl).events = [] ∧
      (runCore transport skip limit ts tbl).transportCalls = []) := by
  refine ⟨?_, ?_, ?_⟩
  · rw [runCore_events]
    exact runEvents_length_le transport skip limit tbl
  · refine ⟨(skIndices skip limit tbl).map fun i => (i, Mark.skipped),
      (dispatchBatch skip limit tbl).map fun p =>
        (p.1, if (sendOne transport p.2).1 then Mark.sent else Mark.failed),
      ?_, ?_, ?_⟩
    · rw [runCore_events]
      exact runEvents_eq_append transport skip limit tbl
    · intro p hp
      obtain ⟨i, _, rfl⟩ := List.mem_map.1 hp
      rfl
    · intro p hp
      obtain ⟨q, _, rfl⟩ := List.mem_map.1 hp
      by_cases hs : (sendOne transport q.2).1
      · exact Or.inl (by simp [hs])
      · exact Or.inr (by simp [hs])
  · intro h0
    subst h0
    constructor
    · rw [runCore_events, runEvents_zero]
    · rw [runCore_calls, sendResults_zero]
      rfl

/-- Witness for C2 at a concrete input with `limit = 0`. -/
theorem c2_cap_respect_witness :
    (runCore (fun _ => true) [] 0 "TS"
        [[("email", "a@b.c"), ("sent_status", "")]]).events = [] ∧
    (runCore (fun _ => true) [] 0 "TS"
        [[("email", "a@b.c"), ("sent_status", "")]]).transportCalls = [] :=
  (c2_cap_respect (fun _ => true) [] 0 "TS"
    [[("email", "a@b.c"), ("sent_status", "")]]).2.2 rfl

/-- C9.  Per-recipient failure policy: every transport call is for an address
that passed the structural check (so a structurally invalid address is never
handed to the transport); a dispatch-batch recipient failing the structural
check (missing `@`, or no `.` after it) is marked `failed` with the run
timestamp; and every dispatch-batch recipient — failures included — gets an
outcome, i.e. a failure never aborts the loop. -/
theorem c9_per_recipient_failure (transport : String → Bool)
    (skip : List String) (limit : Nat) (ts : String) (tbl : List Row) :
    (∀ e ∈ (runCore transport skip limit ts tbl).transportCalls,
        validAddr e = true) ∧
    (∀ i r, (i, r) ∈ dispatchBatch skip limit tbl →
      validAddr (emailOf r) = false →
        (i, Mark.failed) ∈ (runCore transport skip limit ts tbl).events ∧
        emailOf r ∉ (runCore transport skip limit ts tbl).transportCalls ∧
        ∃ r', (runCore transport skip limit ts tbl).table.get? i = some r' ∧
          rowGet r' "sent_status" = some "failed" ∧
          rowGet r' "send_date" = some ts) ∧
    (∀ i r, (i, r) ∈ dispatchBatch skip limit tbl →
      ∃ m, (i, m) ∈ (runCore transport skip limit ts tbl).events ∧
        (m = Mark.sent ∨ m = Mark.failed)) := by
  refine ⟨?_, ?_, ?_⟩
  · intro e he
    exact (mem_transportCalls he).1
  · intro i r hb hinv
    have hsend : sendOne transport r = (false, none) := by
      unfold sendOne
      rw [if_neg (by rw [hinv]; exact Bool.noConfusion)]
    refine ⟨?_, ?_, ?_⟩
    · rw [runCore_events, runEvents_eq_append]
      refine List.mem_append.2 (Or.inr ?_)
      have := List.mem_map_of_mem
        (fun p : Nat × Row =>
          (p.1, if (sendOne transport p.2).1 then Mark.sent else Mark.failed)) hb
      simpa [hsend] using this
    · intro hc
      have := (mem_transportCalls hc).1
      rw [hinv] at this
      exact Bool.noConfusion this
    · have hg := (mem_dispatchBatch hb).1
      have hl := @runEvents_lookup_batch transport skip limit tbl i r hb
      rw [hsend] at hl
      simp only [if_neg (Bool.noConfusion : ¬ false = true)] at hl
      refine ⟨markRow Mark.failed ts r, runCore_table_get_marked hg hl, ?_, ?_⟩
      · exact markRow_get_status Mark.failed ts r
      · exact markRow_get_date Mark.failed ts r
  · intro i r hb
    refine ⟨if (sendOne transport r).1 then Mark.sent else Mark.failed, ?_, ?_⟩
    · rw [runCore_events, runEvents_eq_append]
      refine List.mem_append.2 (Or.inr ?_)
      exact List.mem_map_of_mem
        (fun p : Nat × Row =>
          (p.1, if (sendOne transport p.2).1 then Mark.sent else Mark.failed)) hb
    · by_cases hs : (sendOne transport r).1
      · exact Or.inl (by rw [if_pos hs])
      · exact Or.inr (by rw [if_neg hs])

/-- Witness for C9: a batch with one malformed address (`no-at-sign`) and one
valid one; the malformed one is marked failed with the timestamp and the run
still dispatches the valid one. -/
theorem c9_per_recipient_failure_witness :
    ((0, [("email", "no-at-sign"), ("sent_status", "")]) ∈
        dispatchBatch [] 5 [[("email", "no-at-sign"), ("sent_status", "")],
          [("email", "ok@x.y"), ("sent_status", "")]] ∧
      validAddr "no-at-sign" = false) ∧
    ((0, Mark.failed) ∈
      (runCore (fun _ => true) [] 5 "TS"
        [[("email", "no-at-sign"), ("sent_status", "")],
         [("email", "ok@x.y"), ("sent_status", "")]]).events) ∧
    (∃ m, (1, m) ∈
        (runCore (fun _ => true) [] 5 "TS"
          [[("email", "no-at-sign"), ("sent_status", "")],
           [("email", "ok@x.y"), ("sent_status", "")]]).events ∧
      (m = Mark.sent ∨ m = Mark.failed)) := by
  have h := c9_per_recipient_failure (fun _ => true) [] 5 "TS"
    [[("email", "no-at-sign"), ("sent_status", "")],
     [("email", "ok@x.y"), ("sent_status", "")]]
  refine ⟨⟨by decide, by decide⟩, ?_, ?_⟩
  · exact (h.2.1 0 [("email", "no-at-sign"), ("sent_status", "")]
      (by decide) (by decide)).1
  · exact h.2.2 1 [("email", "ok@x.y"), ("sent_status", "")] (by decide)

/-- C4, counterexample.  The claim says the Opt-Out Set Loader lower-cases
every extracted address; the direct-invocation loader `_load_skip_list`
(send_emails.py line 258, `set(skip_df["email"])`) does not: it keeps
`"A@B.C"` verbatim, which is not its own lower-casing. -/
theorem c4_counterexample :
    "A@B.C" ∈ loadSkipList ["A@B.C"] ∧ "A@B.C" ≠ pyLower "A@B.C" := by
  decide

/-- C4, amended.  The lambda loader lower-cases every extracted address and
the lambda engine matches case-insensitively: an unprocessed recipient whose
address equals an opt-out entry up to letter case is, when the limit covers
the table, marked `skipped` and is never selected for sending.  The
direct-invocation loader instead keeps every entry verbatim (membership is
unchanged, so its matching is case-sensitive). -/
theorem c4_amended_case_insensitivity (transport : String → Bool)
    (entries : List String) (limit : Nat) (ts : String) (tbl : List Row) :
    (∀ e, e ∈ loadSkipListFromS3 entries ↔ ∃ x ∈ entries, pyLower x = e) ∧
    (∀ e, e ∈ loadSkipList entries ↔ e ∈ entries) ∧
    (∀ i r entry, tbl.get? i = some r → isUnprocessed r = true →
      entry ∈ entries → pyLower (emailOf r) = pyLower entry →
      tbl.length ≤ limit →
      (∃ r', (runCore transport (loadSkipListFromS3 entries) limit ts tbl).table.get? i =
          some r' ∧ rowGet r' "sent_status" = some "skipped" ∧
          rowGet r' "send_date" = some ts) ∧
      (i, Mark.sent) ∉
        (runCore transport (loadSkipListFromS3 entries) limit ts tbl).events) := by
  refine ⟨?_, ?_, ?_⟩
  · intro e
    unfold loadSkipListFromS3
    exact List.mem_map
  · intro e
    exact List.mem_dedup
  · intro i r entry hg hu hent hlow hlim
    have hhit : skipHit (loadSkipListFromS3 entries) r = true := by
      unfold skipHit
      rw [decide_eq_true_iff]
      rw [hlow]
      exact List.mem_map.2 ⟨entry, hent, rfl⟩
    have hup : (i, r) ∈ unprocessedRows tbl := mem_unprocessedRows.2 ⟨hg, hu⟩
    have hsk : i ∈ skIndices (loadSkipListFromS3 entries) limit tbl := by
      unfold skIndices
      refine skipPass_complete ?_ hup hhit
      have := unprocessedRows_length_le tbl
      omega
    refine ⟨⟨markRow Mark.skipped ts r,
      runCore_table_get_marked hg (runEvents_lookup_skipped hsk), ?_, ?_⟩, ?_⟩
    · exact markRow_get_status Mark.skipped ts r
    · exact markRow_get_date Mark.skipped ts r
    · intro hmem
      rw [runCore_events, runEvents_eq_append] at hmem
      rcases List.mem_append.1 hmem with h1 | h1
      · obtain ⟨j, _, hje⟩ := List.mem_map.1 h1
        exact Mark.noConfusion (congrArg Prod.snd hje)
      · obtain ⟨⟨j, r2⟩, hp, hpe⟩ := List.mem_map.1 h1
        have hji : j = i := congrArg Prod.fst hpe
        obtain ⟨hg2, _, hhit2⟩ := mem_dispatchBatch hp
        rw [hji, hg] at hg2
        rw [← Option.some_inj.1 hg2, hhit] at hhit2
        exact Bool.noConfusion hhit2

/-- Witness for C4's amended statement: `A@x.y` matches opt-out entry
`a@X.Y` up to case and ends up skipped, not sent. -/
theorem c4_amended_case_insensitivity_witness :
    (∃ r', (runCore (fun _ => true) (loadSkipListFromS3 ["a@X.Y"]) 3 "TS"
        [[("email", "A@x.y"), ("sent_status", ""), ("send_date", "")]]).table.get? 0 =
          some r' ∧ rowGet r' "sent_status" = some "skipped" ∧
          rowGet r' "send_date" = some "TS") ∧
    (0, Mark.sent) ∉
      (runCore (fun _ => true) (loadSkipListFromS3 ["a@X.Y"]) 3 "TS"
        [[("email", "A@x.y"), ("sent_status", ""), ("send_date", "")]]).events := by
  have h := c4_amended_case_insensitivity (fun _ => true) ["a@X.Y"] 3 "TS"
    [[("email", "A@x.y"), ("sent_status", ""), ("send_date", "")]]
  exact h.2.2 0 [("email", "A@x.y"), ("sent_status", ""), ("send_date", "")]
    "a@X.Y" (by decide) (by decide) (by decide) (by decide) (by decide)

theorem mem_upIdx {tbl : List Row} {i : Nat} :
    i ∈ upIdx tbl ↔ ∃ r, tbl.get? i = some r ∧ isUnprocessed r := by
  unfold upIdx
  constructor
  · intro h
    obtain ⟨⟨j, r⟩, hm, hj⟩ := List.mem_map.1 h
    have hji : j = i := hj
    obtain ⟨hg, hu⟩ := mem_unprocessedRows.1 hm
    exact ⟨r, hji ▸ hg, hu⟩
  · intro ⟨r, hg, hu⟩
    exact List.mem_map.2 ⟨(i, r), mem_unprocessedRows.2 ⟨hg, hu⟩, rfl⟩

theorem upIdx_nodup (tbl : List Row) : (upIdx tbl).Nodup :=
  unprocessedRows_fst_nodup tbl

theorem upIdx_length (tbl : List Row) :
    (upIdx tbl).length = (unprocessedRows tbl).length :=
  List.length_map _ _

/-- Every event index is the index of an unprocessed row. -/
theorem eventsFst_subset_upIdx {transport : String → Bool}
    {skip : List String} {limit : Nat} {tbl : List Row} {i : Nat}
    (h : i ∈ (runEvents transport skip limit tbl).map Prod.fst) :
    i ∈ upIdx tbl := by
  obtain ⟨⟨j, m⟩, hm, hj⟩ := List.mem_map.1 h
  have hji : j = i := hj
  obtain ⟨r, hg, hu⟩ := mem_runEvents hm
  exact mem_upIdx.2 ⟨r, hji ▸ hg, hu⟩

/-- A row still unprocessed after the run was unprocessed before it and
received no event: the run consumes unprocessed rows monotonically. -/
theorem upIdx_after_run {transport : String → Bool} {skip : List String}
    {limit : Nat} {ts : String} {tbl : List Row} {i : Nat}
    (h : i ∈ upIdx (runCore transport skip limit ts tbl).table) :
    i ∈ upIdx tbl ∧ i ∉ (runEvents transport skip limit tbl).map Prod.fst := by
  obtain ⟨r', hg', hu'⟩ := mem_upIdx.1 h
  rw [runCore_table, applyEvents_get?] at hg'
  cases hg : tbl.get? i with
  | none => rw [hg] at hg'; exact absurd hg' (by simp)
  | some r =>
    rw [hg] at hg'
    simp only [Option.map_some', Option.some_inj] at hg'
    cases hl : (runEvents transport skip limit tbl).lookup i with
    | some m =>
      rw [hl] at hg'
      have hrr : markRow m ts r = r' := hg'
      rw [← hrr, isUnprocessed_markRow] at hu'
      exact absurd hu' (by simp)
    | none =>
      rw [hl] at hg'
      have hrr : r = r' := hg'
      refine ⟨mem_upIdx.2 ⟨r, hg, hrr ▸ hu'⟩, ?_⟩
      intro hmem
      obtain ⟨m, hm⟩ := lookup_isSome_of_mem_fst hmem
      rw [hm] at hl
      exact Option.noConfusion hl

/-- C3.  Terminal records are inert and re-invocation is idempotent: a record
with non-empty `sent_status` is neither selected for dispatch nor touched,
and two successive runs (with any transport outcomes and timestamps) perform
at most as many transitions in total as the table had unprocessed records,
the second run never touching what the first marked. -/
theorem c3_terminal_inert_idempotent (transport transport₂ : String → Bool)
    (skip : List String) (limit : Nat) (ts ts₂ : String) (tbl : List Row) :
    (∀ i r, tbl.get? i = some r → isUnprocessed r = false →
      (runCore transport skip limit ts tbl).table.get? i = some r ∧
      (∀ p ∈ (runCore transport skip limit ts tbl).events, p.1 ≠ i) ∧
      (∀ p ∈ dispatchBatch skip limit tbl, p.1 ≠ i)) ∧
    ((runCore transport skip limit ts tbl).events.length +
      (runCore transport₂ skip limit ts₂
        (runCore transport skip limit ts tbl).table).events.length ≤
      (unprocessedRows tbl).length) ∧
    (∀ p ∈ (runCore transport skip limit ts tbl).events,
      ∀ q ∈ (runCore transport₂ skip limit ts₂
          (runCore transport skip limit ts tbl).table).events, q.1 ≠ p.1) := by
  have hno_event : ∀ i r, tbl.get? i = some r → isUnprocessed r = false →
      ∀ p ∈ runEvents transport skip limit tbl, p.1 ≠ i := by
    intro i r hg hu p hp hpi
    obtain ⟨r2, hg2, hu2⟩ := mem_runEvents (show (p.1, p.2) ∈ _ from hp)
    rw [hpi, hg] at hg2
    rw [Option.some_inj.1 hg2] at hu
    rw [hu] at hu2
    exact Bool.noConfusion hu2
  refine ⟨?_, ?_, ?_⟩
  · intro i r hg hu
    refine ⟨runCore_table_get_unchanged hg ?_, ?_, ?_⟩
    · intro p hp
      exact hno_event i r hg hu p hp
    · intro p hp
      exact hno_event i r hg hu p (runCore_events transport skip limit ts tbl ▸ hp)
    · intro p hp hpi
      obtain ⟨hg2, hu2, _⟩ := mem_dispatchBatch (show (p.1, p.2) ∈ _ from hp)
      rw [hpi, hg] at hg2
      rw [Option.some_inj.1 hg2] at hu
      rw [hu] at hu2
      exact Bool.noConfusion hu2
  · -- counting: run-1 event indices and run-2 event indices are disjoint
    -- subsets of the unprocessed indices
    set t1 := (runCore transport skip limit ts tbl).table with ht1
    have he1 : (runCore transport skip limit ts tbl).events =
        runEvents transport skip limit tbl := runCore_events ..
    have he2 : (runCore transport₂ skip limit ts₂ t1).events =
        runEvents transport₂ skip limit t1 := runCore_events ..
    rw [he1, he2]
    have hnd1 := runEvents_fst_nodup transport skip limit tbl
    have hnd2 := runEvents_fst_nodup transport₂ skip limit t1
    have hlen1 : (runEvents transport skip limit tbl).length =
        ((runEvents transport skip limit tbl).map Prod.fst).length :=
      (List.length_map _ _).symm
    have hlen2 : (runEvents transport₂ skip limit t1).length =
        ((runEvents transport₂ skip limit t1).map Prod.fst).length :=
      (List.length_map _ _).symm
    rw [hlen1, hlen2]
    rw [← List.toFinset_card_of_nodup hnd1, ← List.toFinset_card_of_nodup hnd2]
    have hsub1 : ((runEvents transport skip limit tbl).map Prod.fst).toFinset ⊆
        (upIdx tbl).toFinset := by
      intro a ha
      rw [List.mem_toFinset] at ha ⊢
      exact eventsFst_subset_upIdx ha
    have hsub2 : ((runEvents transport₂ skip limit t1).map Prod.fst).toFinset ⊆
        (upIdx tbl).toFinset := by
      intro a ha
      rw [List.mem_toFinset] at ha ⊢
      exact (upIdx_after_run (ht1 ▸ eventsFst_subset_upIdx ha : a ∈ upIdx t1)).1
    have hdisj : Disjoint
        ((runEvents transport skip limit tbl).map Prod.fst).toFinset
        ((runEvents transport₂ skip limit t1).map Prod.fst).toFinset := by
      rw [Finset.disjoint_left]
      intro a ha hb
      rw [List.mem_toFinset] at ha hb
      exact (upIdx_after_run (ht1 ▸ eventsFst_subset_upIdx hb : a ∈ upIdx t1)).2 ha
    calc ((runEvents transport skip limit tbl).map Prod.fst).toFinset.card +
          ((runEvents transport₂ skip limit t1).map Prod.fst).toFinset.card
        = (((runEvents transport skip limit tbl).map Prod.fst).toFinset ∪
            ((runEvents transport₂ skip limit t1).map Prod.fst).toFinset).card :=
          (Finset.card_union_of_disjoint hdisj).symm
      _ ≤ (upIdx tbl).toFinset.card :=
          Finset.card_le_card (Finset.union_subset hsub1 hsub2)
      _ = (upIdx tbl).length := List.toFinset_card_of_nodup (upIdx_nodup tbl)
      _ = (unprocessedRows tbl).length := upIdx_length tbl
  · intro p hp q hq hqp
    rw [runCore_events] at hp hq
    have hq1 : q.1 ∈ upIdx (runCore transport skip limit ts tbl).table :=
      eventsFst_subset_upIdx (List.mem_map_of_mem Prod.fst hq)
    have := (upIdx_after_run hq1).2
    rw [hqp] at this
    exact this (List.mem_map_of_mem Prod.fst hp)

/-- Witness for C3: a one-row terminal table is untouched by a run and two
successive runs on it perform zero transitions. -/
theorem c3_terminal_inert_idempotent_witness :
    (runCore (fun _ => true) [] 4 "TS"
        [[("email", "a@b.c"), ("sent_status", "sent"), ("send_date", "old")]]).table.get? 0 =
      some [("email", "a@b.c"), ("sent_status", "sent"), ("send_date", "old")] ∧
    ((runCore (fun _ => true) [] 4 "TS"
        [[("email", "a@b.c"), ("sent_status", "sent"), ("send_date", "old")]]).events.length +
      (runCore (fun _ => false) [] 4 "TS2"
        (runCore (fun _ => true) [] 4 "TS"
          [[("email", "a@b.c"), ("sent_status", "sent"), ("send_date", "old")]]).table).events.length ≤
      (unprocessedRows
        [[("email", "a@b.c"), ("sent_status", "sent"), ("send_date", "old")]]).length) := by
  have h := c3_terminal_inert_idempotent (fun _ => true) (fun _ => false) [] 4
    "TS" "TS2" [[("email", "a@b.c"), ("sent_status", "sent"), ("send_date", "old")]]
  exact ⟨(h.1 0 [("email", "a@b.c"), ("sent_status", "sent"), ("send_date", "old")]
    (by decide) (by decide)).1, h.2.1⟩

/-- C10.  Frame property: a run preserves the row count and row order,
touches at most `limit` rows (its event indices, which are distinct), leaves
untouched rows exactly as loaded, and changes touched rows only in their
`sent_status` and `send_date` fields. -/
theorem c10_frame (transport : String → Bool) (skip : List String)
    (limit : Nat) (ts : String) (tbl : List Row) :
    (runCore transport skip limit ts tbl).table.length = tbl.length ∧
    (runCore transport skip limit ts tbl).events.length ≤ limit ∧
    (((runCore transport skip limit ts tbl).events.map Prod.fst).Nodup) ∧
    (∀ i r, tbl.get? i = some r →
      ((∀ p ∈ (runCore transport skip limit ts tbl).events, p.1 ≠ i) →
        (runCore transport skip limit ts tbl).table.get? i = some r) ∧
      (∀ k, k ≠ "sent_status" → k ≠ "send_date" →
        ∃ r', (runCore transport skip limit ts tbl).table.get? i = some r' ∧
          rowGet r' k = rowGet r k)) := by
  refine ⟨?_, ?_, ?_, ?_⟩
  · rw [runCore_table]
    exact applyEvents_length _ ts tbl
  · rw [runCore_events]
    exact runEvents_length_le transport skip limit tbl
  · rw [runCore_events]
    exact runEvents_fst_nodup transport skip limit tbl
  · intro i r hg
    constructor
    · intro hno
      refine runCore_table_get_unchanged hg ?_
      intro p hp
      apply hno
      rw [runCore_events]
      exact hp
    · intro k hk1 hk2
      cases hl : (runEvents transport skip limit tbl).lookup i with
      | none =>
        refine ⟨r, ?_, rfl⟩
        rw [runCore_table, applyEvents_get?, hg, hl]
        rfl
      | some m =>
        refine ⟨markRow m ts r, runCore_table_get_marked hg hl, ?_⟩
        exact markRow_get_other m ts r k hk1 hk2

theorem mem_availableColumns {r : Row} {k : String} :
    k ∈ availableColumns r ↔ k ∈ rowKeys r ∧ k ∉ systemColumns := by
  unfold availableColumns
  rw [List.mem_dedup, List.mem_filter]
  simp

theorem mem_missingPlaceholders {ph : List String} {r : Row} {p : String} :
    p ∈ missingPlaceholders ph r ↔ p ∈ ph ∧ p ∉ availableColumns r := by
  unfold missingPlaceholders
  rw [List.mem_dedup, List.mem_filter]
  simp

/-- C7, counterexample.  The claim quantifies over every recipient table;
on the empty table (which has no data columns at all) a template referencing
the placeholder `x` must, per the claim, abort with a validation error — but
line 62 (`if email_data:`) skips validation entirely, and the run completes
normally. -/
theorem c7_counterexample :
    processEmailList (fun _ => true) ["x"] [] 5 "TS" [] =
      RunResult.ok
        { table := [], events := [], transportCalls := [], emailsSent := 0,
          emailsSkippedReported := 0, totalProcessedReported := 0 } := by
  decide

/-- C7, amended.  For every *non-empty* recipient table: when the template
references a placeholder outside the first record's data columns (its columns
minus the reserved three), the run aborts with the validation error before
any mutation or transport call, and the error carries exactly the sorted
missing placeholder names and the sorted available column names. -/
theorem c7_amended_validation_aborts (transport : String → Bool)
    (ph skip : List String) (limit : Nat) (ts : String) (r0 : Row)
    (rest : List Row) (hmiss : missingPlaceholders ph r0 ≠ []) :
    processEmailList transport ph skip limit ts (r0 :: rest) =
      RunResult.validationError
        (List.insertionSort (· ≤ ·) (missingPlaceholders ph r0))
        (List.insertionSort (· ≤ ·) (availableColumns r0)) ∧
    (processEmailList transport ph skip limit ts (r0 :: rest)).persisted = none ∧
    (processEmailList transport ph skip limit ts (r0 :: rest)).calls = [] ∧
    (processEmailList transport ph skip limit ts (r0 :: rest)).transitions = [] ∧
    List.Sorted (· ≤ ·) (List.insertionSort (· ≤ ·) (missingPlaceholders ph r0)) ∧
    List.Sorted (· ≤ ·) (List.insertionSort (· ≤ ·) (availableColumns r0)) ∧
    (∀ p, p ∈ List.insertionSort (· ≤ ·) (missingPlaceholders ph r0) ↔
      p ∈ ph ∧ p ∉ availableColumns r0) ∧
    (∀ k, k ∈ List.insertionSort (· ≤ ·) (availableColumns r0) ↔
      k ∈ rowKeys r0 ∧ k ∉ systemColumns) := by
  have hred : processEmailList transport ph skip limit ts (r0 :: rest) =
      if missingPlaceholders ph r0 = [] then
        RunResult.ok (runCore transport skip limit ts (r0 :: rest))
      else
        RunResult.validationError
          (List.insertionSort (· ≤ ·) (missingPlaceholders ph r0))
          (List.insertionSort (· ≤ ·) (availableColumns r0)) := rfl
  have h1 : processEmailList transport ph skip limit ts (r0 :: rest) =
      RunResult.validationError
        (List.insertionSort (· ≤ ·) (missingPlaceholders ph r0))
        (List.insertionSort (· ≤ ·) (availableColumns r0)) := by
    rw [hred, if_neg hmiss]
  refine ⟨h1, by rw [h1]; rfl, by rw [h1]; rfl, by rw [h1]; rfl,
    List.sorted_insertionSort _ _, List.sorted_insertionSort _ _, ?_, ?_⟩
  · intro p
    rw [(List.perm_insertionSort _ _).mem_iff, mem_missingPlaceholders]
  · intro k
    rw [(List.perm_insertionSort _ _).mem_iff, mem_availableColumns]

/-- Witness for C7's amended statement: table with data column `name`,
template placeholder `club`. -/
theorem c7_amended_validation_aborts_witness :
    processEmailList (fun _ => true) ["club"] [] 5 "TS"
      [[("email", "a@b.c"), ("name", "Bo"), ("sent_status", ""), ("send_date", "")]] =
      RunResult.validationError ["club"] ["name"] := by
  have h := c7_amended_validation_aborts (fun _ => true) ["club"] [] 5 "TS"
    [("email", "a@b.c"), ("name", "Bo"), ("sent_status", ""), ("send_date", "")]
    [] (by decide)
  exact h.1

/-- The empty run outcome. -/
theorem runCore_nil (transport : String → Bool) (skip : List String)
    (limit : Nat) (ts : String) :
    runCore transport skip limit ts [] =
      { table := [], events := [], transportCalls := [], emailsSent := 0,
        emailsSkippedReported := 0, totalProcessedReported := 0 } := by
  have hsk : skIndices skip limit [] = [] := rfl
  have hdb : dispatchBatch skip limit [] = [] := by
    unfold dispatchBatch toProcessRows
    rw [hsk]
    simp [unprocessedRows, enumRows]
  have hsr : sendResults transport skip limit [] = [] := by
    unfold sendResults
    rw [hdb]
    rfl
  have hev : runEvents transport skip limit [] = [] := by
    rw [runEvents_eq_append, hsk, hdb]
    rfl
  unfold runCore
  rw [hsr, hev, hsk]
  rfl

/-- C8, counterexample.  The claim says a run against an empty table with a
placeholder-referencing template fails with a validation error; in the code
the `if email_data:` guard (line 62) skips validation for an empty table and
the run completes normally. -/
theorem c8_counterexample :
    processEmailList (fun _ => false) ["event"] ["x@y.z"] 3 "TS2" [] =
      RunResult.ok
        { table := [], events := [], transportCalls := [], emailsSent := 0,
          emailsSkippedReported := 0, totalProcessedReported := 0 } := by
  decide

/-- C8, amended.  Validation uses the columns of the first loaded record and
is skipped entirely for an empty table: a run against an empty table
completes normally with zero transitions for every template, and a run
against a non-empty table fails with a validation error exactly when the
placeholder set minus the first record's data columns is non-empty. -/
theorem c8_amended_empty_table_skips_validation (transport : String → Bool)
    (ph skip : List String) (limit : Nat) (ts : String) :
    processEmailList transport ph skip limit ts [] =
      RunResult.ok
        { table := [], events := [], transportCalls := [], emailsSent := 0,
          emailsSkippedReported := 0, totalProcessedReported := 0 } ∧
    (∀ r0 rest, (∃ m a, processEmailList transport ph skip limit ts (r0 :: rest) =
        RunResult.validationError m a) ↔ missingPlaceholders ph r0 ≠ []) := by
  constructor
  · show RunResult.ok (runCore transport skip limit ts []) = _
    rw [runCore_nil]
  · intro r0 rest
    have hred : processEmailList transport ph skip limit ts (r0 :: rest) =
        if missingPlaceholders ph r0 = [] then
          RunResult.ok (runCore transport skip limit ts (r0 :: rest))
        else
          RunResult.validationError
            (List.insertionSort (· ≤ ·) (missingPlaceholders ph r0))
            (List.insertionSort (· ≤ ·) (availableColumns r0)) := rfl
    constructor
    · intro ⟨m, a, hma⟩
      intro hmiss
      rw [hred, if_pos hmiss] at hma
      exact RunResult.noConfusion hma
    · intro hmiss
      refine ⟨List.insertionSort (· ≤ ·) (missingPlaceholders ph r0),
        List.insertionSort (· ≤ ·) (availableColumns r0), ?_⟩
      rw [hred, if_neg hmiss]

/-- Witness for C8 is not required (no hypotheses), but the non-empty part
is exercised at a concrete input here. -/
theorem c8_amended_empty_table_skips_validation_witness :
    (∃ m a, processEmailList (fun _ => true) ["club"] [] 2 "TS"
        [[("email", "a@b.c"), ("sent_status", ""), ("send_date", "")]] =
      RunResult.validationError m a) := by
  have h := c8_amended_empty_table_skips_validation (fun _ => true) ["club"] [] 2 "TS"
  exact (h.2 [("email", "a@b.c"), ("sent_status", ""), ("send_date", "")] []).2
    (by decide)

/-- Witness for C10 at a concrete table: the `name` field of a processed row
and the whole second (already-terminal) row survive the run unchanged. -/
theorem c10_frame_witness :
    (runCore (fun _ => true) [] 5 "TS"
      [[("email", "a@b.c"), ("name", "Bo"), ("sent_status", ""), ("send_date", "")],
       [("email", "d@e.f"), ("name", "Al"), ("sent_status", "sent"), ("send_date", "old")]]).table.length = 2 ∧
    (∃ r', (runCore (fun _ => true) [] 5 "TS"
        [[("email", "a@b.c"), ("name", "Bo"), ("sent_status", ""), ("send_date", "")],
         [("email", "d@e.f"), ("name", "Al"), ("sent_status", "sent"), ("send_date", "old")]]).table.get? 0 =
          some r' ∧
      rowGet r' "name" =
        rowGet [("email", "a@b.c"), ("name", "Bo"), ("sent_status", ""), ("send_date", "")] "name") := by
  have h := c10_frame (fun _ => true) [] 5 "TS"
    [[("email", "a@b.c"), ("name", "Bo"), ("sent_status", ""), ("send_date", "")],
     [("email", "d@e.f"), ("name", "Al"), ("sent_status", "sent"), ("send_date", "old")]]
  refine ⟨h.1, ?_⟩
  exact (h.2.2.2 0
    [("email", "a@b.c"), ("name", "Bo"), ("sent_status", ""), ("send_date", "")]
    (by decide)).2 "name" (by decide) (by decide)
